import Mathlib

set_option maxHeartbeats 1000000

/-! # Verification of the import-squeeze core

A shallow embedding of `src/lib.rs` of the `import-squeeze` repository.
Strings are modelled as `List Char`; Rust's `str::lines`, `str::trim`,
`starts_with`, `ends_with`, `contains` and slice `join` are modelled by
executable functions below, and the squeezer's `for` loop by a fold over
an explicit state. -/

/-- The newline character, the terminator used by the line splitter and joiner. -/
def nl : Char := '\n'

/-- The carriage-return character, stripped from CRLF terminators by the line splitter. -/
def cr : Char := '\r'

/-- Left curly brace (written by code point, U+007B). -/
def lbrace : Char := Char.ofNat 123

/-- Right curly brace (written by code point, U+007D). -/
def rbrace : Char := Char.ofNat 125

/-- Left parenthesis (written by code point, U+0028). -/
def lparen : Char := Char.ofNat 40

/-- Right parenthesis (written by code point, U+0029). -/
def rparen : Char := Char.ofNat 41

/-- Convert a string literal to the character-list representation used throughout. -/
def lit (s : String) : List Char := s.toList

/-- Unicode white-space test, matching Rust's `char::is_whitespace`
(the Unicode `White_Space` property). -/
def isRustWhitespace (c : Char) : Bool :=
  let n := c.toNat
  (decide (9 ≤ n) && decide (n ≤ 13)) || n == 32 || n == 133 || n == 160 || n == 5760 ||
  (decide (8192 ≤ n) && decide (n ≤ 8202)) || n == 8232 || n == 8233 || n == 8239 ||
  n == 8287 || n == 12288

/-- Model of Rust `str::trim`: drop white space from both ends. -/
def trim (l : List Char) : List Char :=
  ((l.dropWhile isRustWhitespace).reverse.dropWhile isRustWhitespace).reverse

/-- Model of Rust `str::starts_with` on a string pattern. -/
def startsWith : List Char → List Char → Bool
  | _, [] => true
  | [], _ :: _ => false
  | c :: cs, p :: ps => c == p && startsWith cs ps

/-- Model of Rust `str::ends_with` on a string pattern. -/
def endsWith (l p : List Char) : Bool :=
  startsWith l.reverse p.reverse

/-- Strip one trailing carriage return from a line given in reversed form,
returning the line in normal order. Helper for the `str::lines` model. -/
def stripCrRev (acc : List Char) : List Char :=
  match acc with
  | c :: rest => if c = cr then rest.reverse else acc.reverse
  | [] => []

/-- Worker for `rustLines`; `acc` holds the characters of the current line,
in reverse order. A line terminated by `\n` has one trailing `\r` stripped;
the final unterminated line (if any) is emitted verbatim. -/
def rustLinesAux : List Char → List Char → List (List Char)
  | [], acc => if acc.isEmpty then [] else [acc.reverse]
  | c :: cs, acc =>
    if c = nl then stripCrRev acc :: rustLinesAux cs []
    else rustLinesAux cs (c :: acc)

/-- Model of Rust `str::lines`: split at `\n`, strip a trailing `\r` from each
terminated line, and do not produce a final empty line for a trailing `\n`. -/
def rustLines (s : List Char) : List (List Char) :=
  rustLinesAux s []

/-- Model of Rust `[&str]::join` with the given separator. -/
def joinWith (sep : List Char) : List (List Char) → List Char
  | [] => []
  | [l] => l
  | l :: l2 :: ls => l ++ sep ++ joinWith sep (l2 :: ls)

/-- Model of Rust `str::ends_with('\n')`. -/
def endsNlB (s : List Char) : Bool := s.getLast? == some nl

/-- Port of `is_import_line` (src/lib.rs:16): determine if a line starts
an import statement. -/
def is_import_line (line : List Char) : Bool :=
  let trimmed := trim line
  if startsWith trimmed (lit "import ") || startsWith trimmed (lit "import(") then
    if startsWith trimmed (lit "import.meta") then false
    else true
  else if trimmed = lit "import" then true
  else false

/-- Port of `is_import_meta_line` (src/lib.rs:32): is the line part of an
`import.meta` expression. -/
def is_import_meta_line (line : List Char) : Bool :=
  let trimmed := trim line
  startsWith trimmed (lit "import.meta")

/-- Port of `is_in_multiline_import` (src/lib.rs:39): track whether we are
inside a multiline construct; returns the new `in_multiline` state. -/
def is_in_multiline_import (line : List Char) (in_multiline : Bool) : Bool :=
  if in_multiline then
    let trimmed := trim line
    if trimmed.contains rbrace || endsWith trimmed [rparen] || endsWith trimmed (lit ");") then
      false
    else
      true
  else
    let trimmed := trim line
    if is_import_line trimmed && trimmed.contains lbrace && !(trimmed.contains rbrace) then
      true
    else if is_import_meta_line trimmed && trimmed.contains lparen && !(trimmed.contains rparen) then
      true
    else
      false

/-- Port of `is_comment_line` (src/lib.rs:68). -/
def is_comment_line (line : List Char) : Bool :=
  let trimmed := trim line
  startsWith trimmed (lit "//") || startsWith trimmed (lit "/*") ||
    startsWith trimmed (lit "*") || endsWith trimmed (lit "*/")

/-- The mutable state of the `for` loop in `squeeze_imports` (src/lib.rs:77-81). -/
structure SqueezeState where
  result : List (List Char)
  in_multiline : Bool
  in_import_block : Bool
  pending_blank_lines : List (List Char)
  pending_comment_lines : List (List Char)

/-- One iteration of the `for line in &lines` loop of `squeeze_imports`
(src/lib.rs:83-137), with the `continue`s turned into nested conditionals. -/
def squeezeStep (st : SqueezeState) (line : List Char) : SqueezeState :=
  let trimmed := trim line
  let is_blank := trimmed.isEmpty
  let is_comment := is_comment_line trimmed
  let is_import := is_import_line trimmed || is_import_meta_line trimmed || st.in_multiline
  if st.in_multiline then
    { st with result := st.result ++ [line],
              in_multiline := is_in_multiline_import line true }
  else if is_import then
    { st with in_import_block := true,
              result := st.result ++ st.pending_comment_lines ++ [line],
              pending_blank_lines := [],
              pending_comment_lines := [],
              in_multiline := is_in_multiline_import line false }
  else if st.in_import_block then
    if is_blank then
      { st with pending_blank_lines := st.pending_blank_lines ++ [line] }
    else if is_comment then
      { st with pending_comment_lines := st.pending_comment_lines ++ [line] }
    else
      { st with in_import_block := false,
                result := st.result ++ st.pending_blank_lines ++
                  st.pending_comment_lines ++ [line],
                pending_blank_lines := [],
                pending_comment_lines := [] }
  else
    { st with result := st.result ++ [line] }

/-- Port of `squeeze_imports` (src/lib.rs:75-153): the core transform that
removes blank lines between import statements. -/
def squeeze_imports (content : List Char) : List Char :=
  let lines := rustLines content
  let st := lines.foldl squeezeStep ⟨[], false, false, [], []⟩
  let result := st.result ++ st.pending_blank_lines ++ st.pending_comment_lines
  let output := joinWith [nl] result
  if endsNlB content then output ++ [nl] else output

/-- Port of the `FileResult` enum (src/lib.rs:8). -/
inductive FileResult where
  | Unchanged : FileResult
  | Changed : FileResult
deriving DecidableEq

/-- Model of `process_file` (src/lib.rs:157-170). The file system is modelled
by its observable content: the argument `content` is what `fs::read_to_string`
returns, and the second component of the result is the on-disk content after
the call (`fs::write` replaces it, absence of a write keeps it). -/
def process_file (content : List Char) (check : Bool) : FileResult × List Char :=
  let squeezed := squeeze_imports content
  if squeezed = content then (FileResult.Unchanged, content)
  else if !check then (FileResult.Changed, squeezed)
  else (FileResult.Changed, content)

/-! ## Sanity checks against the repository's own test vectors -/

/-- The `test_basic_squeeze` vector from src/lib.rs:189. -/
theorem sanity_basic_squeeze :
    squeeze_imports (lit "import a from 'a'\n\nimport b from 'b'\n\nconst foo = 'bar'\n") =
      lit "import a from 'a'\nimport b from 'b'\n\nconst foo = 'bar'\n" := by
  decide

/-- The `test_multiline_import` vector from src/lib.rs:210 (abridged names). -/
theorem sanity_multiline_import :
    squeeze_imports
        (lit "import \x7b\n  a,\n  b,\n\x7d from 'r'\n\nimport c from 'c'\n\nconst x = 1\n") =
      lit "import \x7b\n  a,\n  b,\n\x7d from 'r'\nimport c from 'c'\n\nconst x = 1\n" := by
  decide

/-- The `test_no_imports` vector from src/lib.rs:234. -/
theorem sanity_no_imports :
    squeeze_imports (lit "const x = 1\nconst y = 2\n") = lit "const x = 1\nconst y = 2\n" := by
  decide

/-- The `test_import_meta_glob_multiline` vector from src/lib.rs:287 (abridged). -/
theorem sanity_import_meta_multiline :
    squeeze_imports
        (lit "import a from 'a'\n\nimport.meta.glob(\n  './x.ts',\n  y\n)\n\nconst x = 1\n") =
      lit "import a from 'a'\nimport.meta.glob(\n  './x.ts',\n  y\n)\n\nconst x = 1\n" := by
  decide

/-- The `test_no_trailing_newline` vector from src/lib.rs:386. -/
theorem sanity_no_trailing_newline :
    squeeze_imports (lit "import a from 'a'\n\nimport b from 'b'") =
      lit "import a from 'a'\nimport b from 'b'" := by
  decide

/-- The `test_top_comment_then_imports` vector from src/lib.rs:311. -/
theorem sanity_top_comment :
    squeeze_imports (lit "// @ts-nocheck\n\nimport a from 'a'\n\nimport b from 'b'\n\nconst x = 1\n") =
      lit "// @ts-nocheck\n\nimport a from 'a'\nimport b from 'b'\n\nconst x = 1\n" := by
  decide

/-! ## Basic lemmas about `trim` and the classifiers -/

lemma dropWhile_dropWhile (p : Char → Bool) (l : List Char) :
    (l.dropWhile p).dropWhile p = l.dropWhile p := by
  induction l with
  | nil => rfl
  | cons c cs ih =>
    rw [List.dropWhile_cons]
    by_cases h : p c
    · simp [h, ih]
    · simp [h, List.dropWhile_cons]

lemma head?_dropWhile (p : Char → Bool) (l : List Char) (a : Char)
    (h : (l.dropWhile p).head? = some a) : p a = false := by
  induction l with
  | nil => simp at h
  | cons c cs ih =>
    rw [List.dropWhile_cons] at h
    by_cases hc : p c
    · simp [hc] at h
      exact ih h
    · simp [hc] at h
      subst h
      simpa using hc

lemma getLast?_dropWhile (p : Char → Bool) (l : List Char)
    (h : l.dropWhile p ≠ []) : (l.dropWhile p).getLast? = l.getLast? := by
  induction l with
  | nil => simp at h
  | cons c cs ih =>
    rw [List.dropWhile_cons] at h ⊢
    by_cases hc : p c
    · simp only [hc, if_true] at h ⊢
      have hcs : cs ≠ [] := by
        intro hh
        subst hh
        simp at h
      rw [ih h]
      cases cs with
      | nil => exact absurd rfl hcs
      | cons d ds => rw [List.getLast?_cons_cons]
    · simp [hc]

lemma dropWhile_eq_self_of_head (p : Char → Bool) (l : List Char)
    (h : ∀ a, l.head? = some a → p a = false) : l.dropWhile p = l := by
  cases l with
  | nil => rfl
  | cons c cs =>
    rw [List.dropWhile_cons]
    simp [h c rfl]

/-- `trim` is idempotent. -/
lemma trim_idem (l : List Char) : trim (trim l) = trim l := by
  unfold trim
  have fact2 :
      ((((l.dropWhile isRustWhitespace).reverse.dropWhile isRustWhitespace).reverse).reverse).dropWhile
          isRustWhitespace =
        (l.dropWhile isRustWhitespace).reverse.dropWhile isRustWhitespace := by
    rw [List.reverse_reverse, dropWhile_dropWhile]
  have fact1 :
      (((l.dropWhile isRustWhitespace).reverse.dropWhile isRustWhitespace).reverse).dropWhile
          isRustWhitespace =
        ((l.dropWhile isRustWhitespace).reverse.dropWhile isRustWhitespace).reverse := by
    apply dropWhile_eq_self_of_head
    intro a ha
    rw [List.head?_reverse] at ha
    have hCne : (l.dropWhile isRustWhitespace).reverse.dropWhile isRustWhitespace ≠ [] := by
      intro hh
      rw [hh] at ha
      simp at ha
    rw [getLast?_dropWhile isRustWhitespace _ hCne, List.getLast?_reverse] at ha
    exact head?_dropWhile isRustWhitespace l a ha
  rw [fact1, fact2]

lemma is_import_line_trim (l : List Char) : is_import_line (trim l) = is_import_line l := by
  unfold is_import_line
  rw [trim_idem]

lemma is_import_meta_line_trim (l : List Char) :
    is_import_meta_line (trim l) = is_import_meta_line l := by
  unfold is_import_meta_line
  rw [trim_idem]

lemma is_comment_line_trim (l : List Char) : is_comment_line (trim l) = is_comment_line l := by
  unfold is_comment_line
  rw [trim_idem]

lemma trim_trim_isEmpty (l : List Char) : (trim (trim l)).isEmpty = (trim l).isEmpty := by
  rw [trim_idem]

/-- Two prefixes of the same list are comparable. -/
lemma startsWith_compat : ∀ (t p q : List Char),
    startsWith t p = true → startsWith t q = true →
    (startsWith p q || startsWith q p) = true := by
  intro t
  induction t with
  | nil =>
    intro p q hp hq
    cases p with
    | nil => simp [startsWith]
    | cons a as => simp [startsWith] at hp
  | cons c cs ih =>
    intro p q hp hq
    cases p with
    | nil => simp [startsWith]
    | cons a as =>
      cases q with
      | nil => simp [startsWith]
      | cons b bs =>
        simp only [startsWith, Bool.and_eq_true] at hp hq
        obtain ⟨hca, hsp⟩ := hp
        obtain ⟨hcb, hsq⟩ := hq
        have hab : a = b := by
          have h1 : c = a := by simpa using hca
          have h2 : c = b := by simpa using hcb
          rw [← h1, h2]
        subst hab
        have := ih as bs hsp hsq
        rcases Bool.or_eq_true _ _ |>.mp this with h | h
        · simp [startsWith, h]
        · simp [startsWith, h]

lemma startsWith_nil_false (p : List Char) (hp : p ≠ []) : startsWith [] p = false := by
  cases p with
  | nil => exact absurd rfl hp
  | cons a as => rfl

/-- A blank line (empty after trimming) is never classified as an import or
import-meta opener. -/
lemma blank_not_opener (l : List Char) (h : (trim l).isEmpty = true) :
    is_import_line l = false ∧ is_import_meta_line l = false := by
  have ht : trim l = [] := by
    cases hl : trim l with
    | nil => rfl
    | cons a as => rw [hl] at h; simp at h
  constructor
  · unfold is_import_line
    rw [ht]
    decide
  · unfold is_import_meta_line
    rw [ht]
    decide

/-! ## Claim theorems: the classifier (C6) and the multiline tracker (C5) -/

/-- C6: `is_import_line` returns true for a line iff its trimmed form begins with
"import " (with a space), begins with "import(", or equals exactly "import";
and it returns false for every line whose trimmed form begins with "import.meta". -/
theorem claim_c6 (line : List Char) :
    is_import_line line =
      (startsWith (trim line) (lit "import ") || startsWith (trim line) (lit "import(") ||
        (trim line == lit "import")) ∧
    (startsWith (trim line) (lit "import.meta") = true → is_import_line line = false) := by
  have meta1 : startsWith (trim line) (lit "import ") = true →
      startsWith (trim line) (lit "import.meta") = false := by
    intro h1
    by_contra hm
    rw [Bool.not_eq_false] at hm
    have := startsWith_compat _ _ _ h1 hm
    exact absurd this (by decide)
  have meta2 : startsWith (trim line) (lit "import(") = true →
      startsWith (trim line) (lit "import.meta") = false := by
    intro h2
    by_contra hm
    rw [Bool.not_eq_false] at hm
    have := startsWith_compat _ _ _ h2 hm
    exact absurd this (by decide)
  constructor
  · simp only [is_import_line]
    by_cases h1 : startsWith (trim line) (lit "import ") = true
    · simp [h1, meta1 h1]
    · by_cases h2 : startsWith (trim line) (lit "import(") = true
      · simp [h1, h2, meta2 h2]
      · by_cases h3 : trim line = lit "import"
        · simp [h1, h2, h3]
          decide
        · simp [h1, h2, h3]
  · intro hm
    simp only [is_import_line]
    have h1 : startsWith (trim line) (lit "import ") = false := by
      by_contra hh
      rw [Bool.not_eq_false] at hh
      rw [meta1 hh] at hm
      exact absurd hm (by decide)
    have h2 : startsWith (trim line) (lit "import(") = false := by
      by_contra hh
      rw [Bool.not_eq_false] at hh
      rw [meta2 hh] at hm
      exact absurd hm (by decide)
    have h3 : trim line ≠ lit "import" := by
      intro hh
      rw [hh] at hm
      exact absurd hm (by decide)
    simp [h1, h2, h3]

/-- C6 witness at a concrete input: "import.meta.glob('./a')" trims to itself,
begins with "import.meta", and is not an import line. -/
theorem claim_c6_witness :
    startsWith (trim (lit "import.meta.glob('./a')")) (lit "import.meta") = true ∧
    is_import_line (lit "import.meta.glob('./a')") = false := by
  refine ⟨by decide, ?_⟩
  exact (claim_c6 (lit "import.meta.glob('./a')")).2 (by decide)

/-- C5: the multiline tracker, from state `false`, returns true iff the line is
an import opener containing a left brace but no right brace, or an import-meta
opener containing a left parenthesis but no right parenthesis; from state
`true` it returns false iff the trimmed line contains a right brace, ends with
")" or ends with ");", and otherwise returns true. -/
theorem claim_c5 (line : List Char) :
    is_in_multiline_import line false =
      ((is_import_line line && (trim line).contains lbrace && !((trim line).contains rbrace)) ||
        (is_import_meta_line line && (trim line).contains lparen &&
          !((trim line).contains rparen))) ∧
    is_in_multiline_import line true =
      !((trim line).contains rbrace || endsWith (trim line) [rparen] ||
        endsWith (trim line) (lit ");")) := by
  constructor
  · simp only [is_in_multiline_import]
    rw [is_import_line_trim, is_import_meta_line_trim]
    by_cases hA : (is_import_line line && (trim line).contains lbrace &&
        !((trim line).contains rbrace)) = true
    · simp [hA]
    · by_cases hB : (is_import_meta_line line && (trim line).contains lparen &&
          !((trim line).contains rparen)) = true
      · simp [hA, hB]
      · simp [hA, hB]
  · simp only [is_in_multiline_import]
    by_cases h : ((trim line).contains rbrace || endsWith (trim line) [rparen] ||
        endsWith (trim line) (lit ");")) = true
    · simp [h]
    · simp [h]

/-! ## Claim theorems: the file processor (C7) and totality (C9) -/

/-- C7: in check mode `process_file` leaves the on-disk content unchanged and
reports `Changed` exactly when the squeezed content differs; in write mode it
rewrites the file with the squeezed content only when it differs, so an
already-clean file is not rewritten and reports `Unchanged`. -/
theorem claim_c7 (content : List Char) :
    (process_file content true).2 = content ∧
    (process_file content true).1 =
      (if squeeze_imports content = content then FileResult.Unchanged else FileResult.Changed) ∧
    process_file content false =
      (if squeeze_imports content = content then (FileResult.Unchanged, content)
        else (FileResult.Changed, squeeze_imports content)) := by
  unfold process_file
  by_cases h : squeeze_imports content = content
  · simp [h]
  · simp [h]

/-- C9: the squeezer is total — it returns a result on every input string.
(The shallow embedding of `squeeze_imports` is a total Lean function; no case
of the Rust source can panic or error, so no `Option`/`Except` was needed.) -/
theorem claim_c9 (content : List Char) : ∃ output : List Char, squeeze_imports content = output :=
  ⟨squeeze_imports content, rfl⟩

/-! ## A recursive presentation of the squeezer loop

`run` computes the lines that the loop of `squeeze_imports` will still emit
from a given loop state; it is the loop of src/lib.rs:83-145 (including the
final flush) written as structural recursion, which the induction proofs use. -/

def run : List (List Char) → Bool → Bool → List (List Char) → List (List Char) → List (List Char)
  | [], _, _, pb, pc => pb ++ pc
  | line :: ls, m, b, pb, pc =>
    let trimmed := trim line
    let is_blank := trimmed.isEmpty
    let is_comment := is_comment_line trimmed
    let is_import := is_import_line trimmed || is_import_meta_line trimmed || m
    if m then line :: run ls (is_in_multiline_import line true) b pb pc
    else if is_import then pc ++ [line] ++ run ls (is_in_multiline_import line false) true [] []
    else if b then
      if is_blank then run ls m b (pb ++ [line]) pc
      else if is_comment then run ls m b pb (pc ++ [line])
      else pb ++ pc ++ [line] ++ run ls m false [] []
    else line :: run ls m b pb pc

/-- The loop-with-state of `squeeze_imports` agrees with `run`: folding the
step function and then flushing the pendings emits `st.result` followed by
`run` of the remaining lines from the components of `st`. -/
lemma finalize_foldl_run : ∀ (ls : List (List Char)) (st : SqueezeState),
    (ls.foldl squeezeStep st).result ++ (ls.foldl squeezeStep st).pending_blank_lines ++
      (ls.foldl squeezeStep st).pending_comment_lines =
    st.result ++ run ls st.in_multiline st.in_import_block st.pending_blank_lines
      st.pending_comment_lines := by
  intro ls
  induction ls with
  | nil =>
    intro st
    simp [run, List.append_assoc]
  | cons l ls ih =>
    intro st
    rw [List.foldl_cons, ih (squeezeStep st l)]
    by_cases hm : st.in_multiline
    · simp [squeezeStep, run, hm, List.append_assoc]
    · by_cases hA : (is_import_line (trim l) || is_import_meta_line (trim l)) = true
      · simp [squeezeStep, run, hm, hA, List.append_assoc]
      · by_cases hb : st.in_import_block
        · by_cases hbl : (trim l).isEmpty
          · simp [squeezeStep, run, hm, hA, hb, hbl, List.append_assoc]
          · by_cases hc : is_comment_line (trim l)
            · simp [squeezeStep, run, hm, hA, hb, hbl, hc, List.append_assoc]
            · simp [squeezeStep, run, hm, hA, hb, hbl, hc, List.append_assoc]
        · simp [squeezeStep, run, hm, hA, hb, List.append_assoc]

/-- `squeeze_imports` in terms of `run`. -/
lemma squeeze_imports_eq_run (content : List Char) :
    squeeze_imports content =
      (if endsNlB content then
        joinWith [nl] (run (rustLines content) false false [] []) ++ [nl]
      else joinWith [nl] (run (rustLines content) false false [] [])) := by
  have h := finalize_foldl_run (rustLines content) ⟨[], false, false, [], []⟩
  simp only [squeeze_imports]
  rw [h]
  simp

/-- A line that fires the import branch of the loop: an import opener or an
import-meta opener (src/lib.rs:87 with `in_multiline` false). -/
def openerish (line : List Char) : Bool :=
  is_import_line line || is_import_meta_line line

/-- A blank line: empty after trimming (src/lib.rs:85). -/
def blankB (line : List Char) : Bool := (trim line).isEmpty

lemma openerish_trim (x : List Char) :
    (is_import_line (trim x) || is_import_meta_line (trim x)) = openerish x := by
  rw [is_import_line_trim, is_import_meta_line_trim, openerish]

lemma blank_not_openerish (x : List Char) (h : blankB x = true) : openerish x = false := by
  obtain ⟨h1, h2⟩ := blank_not_opener x h
  rw [openerish, h1, h2]
  rfl

/-! Branch equations for `run`. -/

lemma run_nil_eq (m b : Bool) (pb pc : List (List Char)) : run [] m b pb pc = pb ++ pc := rfl

lemma run_cons_multiline (x : List Char) (ls : List (List Char)) (b : Bool)
    (pb pc : List (List Char)) :
    run (x :: ls) true b pb pc = x :: run ls (is_in_multiline_import x true) b pb pc := by
  simp [run]

lemma run_cons_import (x : List Char) (ls : List (List Char)) (b : Bool)
    (pb pc : List (List Char)) (hA : openerish x = true) :
    run (x :: ls) false b pb pc =
      pc ++ [x] ++ run ls (is_in_multiline_import x false) true [] [] := by
  have h1 : (is_import_line (trim x) || is_import_meta_line (trim x)) = true := by
    rw [openerish_trim]; exact hA
  simp [run, h1]

lemma run_cons_blank (x : List Char) (ls : List (List Char)) (pb pc : List (List Char))
    (hA : openerish x = false) (hbl : blankB x = true) :
    run (x :: ls) false true pb pc = run ls false true (pb ++ [x]) pc := by
  have h1 : (is_import_line (trim x) || is_import_meta_line (trim x)) = false := by
    rw [openerish_trim]; exact hA
  have h2 : (trim x).isEmpty = true := hbl
  simp [run, h1, h2]

lemma run_cons_comment (x : List Char) (ls : List (List Char)) (pb pc : List (List Char))
    (hA : openerish x = false) (hbl : blankB x = false) (hc : is_comment_line x = true) :
    run (x :: ls) false true pb pc = run ls false true pb (pc ++ [x]) := by
  have h1 : (is_import_line (trim x) || is_import_meta_line (trim x)) = false := by
    rw [openerish_trim]; exact hA
  have h2 : (trim x).isEmpty = false := hbl
  have h3 : is_comment_line (trim x) = true := by rw [is_comment_line_trim]; exact hc
  simp [run, h1, h2, h3]

lemma run_cons_term (x : List Char) (ls : List (List Char)) (pb pc : List (List Char))
    (hA : openerish x = false) (hbl : blankB x = false) (hc : is_comment_line x = false) :
    run (x :: ls) false true pb pc = pb ++ pc ++ [x] ++ run ls false false [] [] := by
  have h1 : (is_import_line (trim x) || is_import_meta_line (trim x)) = false := by
    rw [openerish_trim]; exact hA
  have h2 : (trim x).isEmpty = false := hbl
  have h3 : is_comment_line (trim x) = false := by rw [is_comment_line_trim]; exact hc
  simp [run, h1, h2, h3]

lemma run_cons_pass (x : List Char) (ls : List (List Char)) (pb pc : List (List Char))
    (hA : openerish x = false) :
    run (x :: ls) false false pb pc = x :: run ls false false pb pc := by
  have h1 : (is_import_line (trim x) || is_import_meta_line (trim x)) = false := by
    rw [openerish_trim]; exact hA
  simp [run, h1]

/-- `run` of a nonempty line list is nonempty. -/
lemma run_cons_ne_nil : ∀ (ls : List (List Char)) (m b : Bool) (pb pc : List (List Char))
    (x : List Char), run (x :: ls) m b pb pc ≠ [] := by
  intro ls
  induction ls with
  | nil =>
    intro m b pb pc x
    cases m with
    | true => rw [run_cons_multiline]; simp
    | false =>
      by_cases hA : openerish x = true
      · rw [run_cons_import x [] b pb pc hA]; simp
      · rw [Bool.not_eq_true] at hA
        cases b with
        | false => rw [run_cons_pass x [] pb pc hA]; simp
        | true =>
          by_cases hbl : blankB x = true
          · rw [run_cons_blank x [] pb pc hA hbl, run_nil_eq]; simp
          · rw [Bool.not_eq_true] at hbl
            by_cases hc : is_comment_line x = true
            · rw [run_cons_comment x [] pb pc hA hbl hc, run_nil_eq]; simp
            · rw [Bool.not_eq_true] at hc
              rw [run_cons_term x [] pb pc hA hbl hc]; simp
  | cons y ls ih =>
    intro m b pb pc x
    cases m with
    | true => rw [run_cons_multiline]; simp
    | false =>
      by_cases hA : openerish x = true
      · rw [run_cons_import x (y :: ls) b pb pc hA]; simp
      · rw [Bool.not_eq_true] at hA
        cases b with
        | false => rw [run_cons_pass x (y :: ls) pb pc hA]; simp
        | true =>
          by_cases hbl : blankB x = true
          · rw [run_cons_blank x (y :: ls) pb pc hA hbl]
            exact ih _ _ _ _ _
          · rw [Bool.not_eq_true] at hbl
            by_cases hc : is_comment_line x = true
            · rw [run_cons_comment x (y :: ls) pb pc hA hbl hc]
              exact ih _ _ _ _ _
            · rw [Bool.not_eq_true] at hc
              rw [run_cons_term x (y :: ls) pb pc hA hbl hc]; simp

/-- Every line emitted by `run` is one of the input lines or a pending line. -/
lemma run_mem (P : List Char → Prop) : ∀ (ls : List (List Char)) (m b : Bool)
    (pb pc : List (List Char)),
    (∀ y ∈ ls, P y) → (∀ y ∈ pb, P y) → (∀ y ∈ pc, P y) →
    ∀ y ∈ run ls m b pb pc, P y := by
  intro ls
  induction ls with
  | nil =>
    intro m b pb pc _ hpb hpc y hy
    rw [run_nil_eq] at hy
    rcases List.mem_append.mp hy with h | h
    · exact hpb y h
    · exact hpc y h
  | cons x ls ih =>
    intro m b pb pc hls hpb hpc y hy
    have hx : P x := hls x (List.mem_cons_self x ls)
    have hls' : ∀ z ∈ ls, P z := fun z h => hls z (List.mem_cons_of_mem x h)
    have hnil : ∀ z ∈ ([] : List (List Char)), P z := by intro z h; simp at h
    cases m with
    | true =>
      rw [run_cons_multiline] at hy
      rcases List.mem_cons.mp hy with h | h
      · rw [h]; exact hx
      · exact ih _ _ _ _ hls' hpb hpc y h
    | false =>
      by_cases hA : openerish x = true
      · rw [run_cons_import x ls b pb pc hA] at hy
        rcases List.mem_append.mp hy with h | h
        · rcases List.mem_append.mp h with h2 | h2
          · exact hpc y h2
          · rw [List.mem_singleton.mp h2]; exact hx
        · exact ih _ _ _ _ hls' hnil hnil y h
      · rw [Bool.not_eq_true] at hA
        cases b with
        | false =>
          rw [run_cons_pass x ls pb pc hA] at hy
          rcases List.mem_cons.mp hy with h | h
          · rw [h]; exact hx
          · exact ih _ _ _ _ hls' hpb hpc y h
        | true =>
          by_cases hbl : blankB x = true
          · rw [run_cons_blank x ls pb pc hA hbl] at hy
            refine ih _ _ _ _ hls' ?_ hpc y hy
            intro z hz
            rcases List.mem_append.mp hz with h | h
            · exact hpb z h
            · rw [List.mem_singleton.mp h]; exact hx
          · rw [Bool.not_eq_true] at hbl
            by_cases hc : is_comment_line x = true
            · rw [run_cons_comment x ls pb pc hA hbl hc] at hy
              refine ih _ _ _ _ hls' hpb ?_ y hy
              intro z hz
              rcases List.mem_append.mp hz with h | h
              · exact hpc z h
              · rw [List.mem_singleton.mp h]; exact hx
            · rw [Bool.not_eq_true] at hc
              rw [run_cons_term x ls pb pc hA hbl hc] at hy
              rcases List.mem_append.mp hy with h | h
              · rcases List.mem_append.mp h with h2 | h2
                · rcases List.mem_append.mp h2 with h3 | h3
                  · exact hpb y h3
                  · exact hpc y h3
                · rw [List.mem_singleton.mp h2]; exact hx
              · exact ih _ _ _ _ hls' hnil hnil y h

lemma getLast?_all_ne_nil (pc : List (List Char)) (hpc : ∀ c ∈ pc, c ≠ [])
    (hne : pc ≠ []) : ∃ l, pc.getLast? = some l ∧ l ≠ [] := by
  rcases List.eq_nil_or_concat pc with h | ⟨L, c, h⟩
  · exact absurd h hne
  · subst h
    exact ⟨c, by simp, hpc c (by simp)⟩

lemma ne_nil_of_blankB_false (x : List Char) (h : blankB x = false) : x ≠ [] := by
  intro hx
  subst hx
  exact absurd h (by decide)

/-- The last line emitted by `run` is the last input line, or else is nonempty.
(Pending comment lines are nonempty; pending blanks other than the final input
line are always followed by a comment or flushed before the end.) -/
lemma run_getLast : ∀ (ls : List (List Char)) (m b : Bool) (pb pc : List (List Char)),
    ls ≠ [] →
    (∀ c ∈ pc, c ≠ []) →
    (m = true → pb = [] ∧ pc = []) →
    (b = false → pb = [] ∧ pc = []) →
    ∃ l, (run ls m b pb pc).getLast? = some l ∧ (ls.getLast? = some l ∨ l ≠ []) := by
  intro ls
  induction ls with
  | nil => intro m b pb pc h _ _ _; exact absurd rfl h
  | cons x ls ih =>
    intro m b pb pc _ hpc hm hb
    cases ls with
    | nil =>
      cases m with
      | true =>
        obtain ⟨hpb1, hpc1⟩ := hm rfl
        subst hpb1; subst hpc1
        rw [run_cons_multiline, run_nil_eq]
        exact ⟨x, by simp, Or.inl (by simp)⟩
      | false =>
        by_cases hA : openerish x = true
        · rw [run_cons_import x [] b pb pc hA, run_nil_eq]
          exact ⟨x, by simp, Or.inl (by simp)⟩
        · rw [Bool.not_eq_true] at hA
          cases b with
          | false =>
            obtain ⟨hpb1, hpc1⟩ := hb rfl
            subst hpb1; subst hpc1
            rw [run_cons_pass x [] [] [] hA, run_nil_eq]
            exact ⟨x, by simp, Or.inl (by simp)⟩
          | true =>
            by_cases hbl : blankB x = true
            · rw [run_cons_blank x [] pb pc hA hbl, run_nil_eq]
              by_cases hpcn : pc = []
              · subst hpcn
                exact ⟨x, by simp, Or.inl (by simp)⟩
              · obtain ⟨l, hl, hlne⟩ := getLast?_all_ne_nil pc hpc hpcn
                refine ⟨l, ?_, Or.inr hlne⟩
                rw [List.getLast?_append_of_ne_nil _ hpcn, hl]
            · rw [Bool.not_eq_true] at hbl
              by_cases hc : is_comment_line x = true
              · rw [run_cons_comment x [] pb pc hA hbl hc, run_nil_eq]
                refine ⟨x, ?_, Or.inl (by simp)⟩
                have hne : pc ++ [x] ≠ [] := by simp
                rw [List.getLast?_append_of_ne_nil _ hne]
                simp
              · rw [Bool.not_eq_true] at hc
                rw [run_cons_term x [] pb pc hA hbl hc, run_nil_eq]
                refine ⟨x, ?_, Or.inl (by simp)⟩
                simp
    | cons y ls' =>
      have hylast : (x :: y :: ls').getLast? = (y :: ls').getLast? := by
        rw [List.getLast?_cons_cons]
      have hyne : (y :: ls') ≠ [] := by simp
      have hRne : ∀ (m' b' : Bool) (pb' pc' : List (List Char)),
          run (y :: ls') m' b' pb' pc' ≠ [] := fun m' b' pb' pc' => run_cons_ne_nil ls' m' b' pb' pc' y
      have hnilpc : ∀ c ∈ ([] : List (List Char)), c ≠ [] := by intro c h; simp at h
      have hemp : ∀ (v : Bool), v = true → ([] : List (List Char)) = [] ∧ ([] : List (List Char)) = [] :=
        fun v _ => ⟨rfl, rfl⟩
      cases m with
      | true =>
        obtain ⟨hpb1, hpc1⟩ := hm rfl
        subst hpb1; subst hpc1
        rw [run_cons_multiline]
        obtain ⟨l, hl, hor⟩ := ih (is_in_multiline_import x true) b [] [] hyne hnilpc
          (hemp _) (fun _ => ⟨rfl, rfl⟩)
        refine ⟨l, ?_, ?_⟩
        · rw [show (x :: run (y :: ls') (is_in_multiline_import x true) b [] []) =
            [x] ++ run (y :: ls') (is_in_multiline_import x true) b [] [] from rfl]
          rw [List.getLast?_append_of_ne_nil _ (hRne _ _ _ _), hl]
        · rw [hylast]; exact hor
      | false =>
        by_cases hA : openerish x = true
        · rw [run_cons_import x (y :: ls') b pb pc hA]
          obtain ⟨l, hl, hor⟩ := ih (is_in_multiline_import x false) true [] [] hyne hnilpc
            (hemp _) (fun h => nomatch h)
          refine ⟨l, ?_, ?_⟩
          · rw [List.append_assoc]
            rw [List.getLast?_append_of_ne_nil _ (by simp [hRne])]
            rw [List.getLast?_append_of_ne_nil _ (hRne _ _ _ _), hl]
          · rw [hylast]; exact hor
        · rw [Bool.not_eq_true] at hA
          cases b with
          | false =>
            obtain ⟨hpb1, hpc1⟩ := hb rfl
            subst hpb1; subst hpc1
            rw [run_cons_pass x (y :: ls') [] [] hA]
            obtain ⟨l, hl, hor⟩ := ih false false [] [] hyne hnilpc (fun h => nomatch h)
              (fun _ => ⟨rfl, rfl⟩)
            refine ⟨l, ?_, ?_⟩
            · rw [show (x :: run (y :: ls') false false [] []) =
                [x] ++ run (y :: ls') false false [] [] from rfl]
              rw [List.getLast?_append_of_ne_nil _ (hRne _ _ _ _), hl]
            · rw [hylast]; exact hor
          | true =>
            by_cases hbl : blankB x = true
            · rw [run_cons_blank x (y :: ls') pb pc hA hbl]
              obtain ⟨l, hl, hor⟩ := ih false true (pb ++ [x]) pc hyne hpc
                (fun h => nomatch h) (fun h => nomatch h)
              exact ⟨l, hl, by rw [hylast]; exact hor⟩
            · rw [Bool.not_eq_true] at hbl
              by_cases hc : is_comment_line x = true
              · rw [run_cons_comment x (y :: ls') pb pc hA hbl hc]
                have hxne : x ≠ [] := ne_nil_of_blankB_false x hbl
                have hpc' : ∀ c ∈ pc ++ [x], c ≠ [] := by
                  intro c hcm
                  rcases List.mem_append.mp hcm with h | h
                  · exact hpc c h
                  · rw [List.mem_singleton.mp h]; exact hxne
                obtain ⟨l, hl, hor⟩ := ih false true pb (pc ++ [x]) hyne hpc'
                  (fun h => nomatch h) (fun h => nomatch h)
                exact ⟨l, hl, by rw [hylast]; exact hor⟩
              · rw [Bool.not_eq_true] at hc
                rw [run_cons_term x (y :: ls') pb pc hA hbl hc]
                obtain ⟨l, hl, hor⟩ := ih false false [] [] hyne hnilpc
                  (fun h => nomatch h) (fun _ => ⟨rfl, rfl⟩)
                refine ⟨l, ?_, ?_⟩
                · rw [List.append_assoc, List.append_assoc]
                  rw [List.getLast?_append_of_ne_nil _ (by simp [hRne])]
                  rw [List.getLast?_append_of_ne_nil _ (by simp [hRne])]
                  rw [List.getLast?_append_of_ne_nil _ (hRne _ _ _ _), hl]
                · rw [hylast]; exact hor

/-! ## Lemmas about the line splitter and joiner -/

lemma rustLinesAux_eq_nil : ∀ (s acc : List Char),
    rustLinesAux s acc = [] → s = [] ∧ acc = [] := by
  intro s
  induction s with
  | nil =>
    intro acc h
    by_cases ha : acc.isEmpty
    · exact ⟨rfl, List.isEmpty_iff.mp ha⟩
    · rw [rustLinesAux] at h
      simp [ha] at h
  | cons c cs ih =>
    intro acc h
    rw [rustLinesAux] at h
    by_cases hc : c = nl
    · simp [hc] at h
    · simp only [hc, if_false] at h
      obtain ⟨_, h2⟩ := ih (c :: acc) h
      simp at h2

lemma rustLines_eq_nil (s : List Char) (h : rustLines s = []) : s = [] :=
  (rustLinesAux_eq_nil s [] h).1

lemma mem_stripCrRev (a : Char) (acc : List Char) (h : a ∈ stripCrRev acc) : a ∈ acc := by
  cases acc with
  | nil => simp [stripCrRev] at h
  | cons c rest =>
    rw [stripCrRev] at h
    by_cases hc : c = cr
    · simp only [hc, if_true] at h
      rw [List.mem_reverse] at h
      exact List.mem_cons_of_mem c h
    · simp only [hc, if_false] at h
      rw [List.mem_reverse] at h
      exact h

/-- Lines produced by the splitter contain no newline character. -/
lemma rustLinesAux_no_nl : ∀ (s acc : List Char), (∀ a ∈ acc, a ≠ nl) →
    ∀ y ∈ rustLinesAux s acc, ∀ a ∈ y, a ≠ nl := by
  intro s
  induction s with
  | nil =>
    intro acc hacc y hy a ha
    rw [rustLinesAux] at hy
    by_cases hae : acc.isEmpty
    · simp [hae] at hy
    · simp [hae] at hy
      subst hy
      exact hacc a (List.mem_reverse.mp ha)
  | cons c cs ih =>
    intro acc hacc y hy a ha
    rw [rustLinesAux] at hy
    by_cases hc : c = nl
    · simp only [hc, if_true] at hy
      rcases List.mem_cons.mp hy with h | h
      · subst h
        exact hacc a (mem_stripCrRev a acc ha)
      · exact ih [] (by intro z hz; simp at hz) y h a ha
    · simp only [hc, if_false] at hy
      refine ih (c :: acc) ?_ y hy a ha
      intro z hz
      rcases List.mem_cons.mp hz with h | h
      · rw [h]; exact hc
      · exact hacc z h

lemma rustLines_no_nl (s : List Char) : ∀ y ∈ rustLines s, ∀ a ∈ y, a ≠ nl :=
  rustLinesAux_no_nl s [] (by intro z hz; simp at hz)

/-- Splitting at an explicit first newline. -/
lemma rustLinesAux_split : ∀ (l rest acc : List Char), nl ∉ l →
    rustLinesAux (l ++ nl :: rest) acc =
      stripCrRev (l.reverse ++ acc) :: rustLinesAux rest [] := by
  intro l
  induction l with
  | nil =>
    intro rest acc _
    simp [rustLinesAux]
  | cons c l' ih =>
    intro rest acc hnl
    have hc : c ≠ nl := by
      intro h
      exact hnl (h ▸ List.mem_cons_self c l')
    have hl' : nl ∉ l' := fun h => hnl (List.mem_cons_of_mem c h)
    rw [List.cons_append, rustLinesAux]
    simp only [hc, if_false]
    rw [ih rest (c :: acc) hl']
    congr 1
    rw [List.reverse_cons, List.append_assoc]
    rfl

/-- Splitting a newline-free remainder. -/
lemma rustLinesAux_no_newline : ∀ (l acc : List Char), nl ∉ l →
    rustLinesAux l acc =
      (if (acc.reverse ++ l).isEmpty then [] else [acc.reverse ++ l]) := by
  intro l
  induction l with
  | nil =>
    intro acc _
    rw [rustLinesAux]
    by_cases ha : acc.isEmpty
    · have : acc = [] := List.isEmpty_iff.mp ha
      subst this
      simp
    · have h0 : acc ≠ [] := fun h => ha (by rw [h]; rfl)
      simp [ha, List.isEmpty_iff, h0]
  | cons c l' ih =>
    intro acc hnl
    have hc : c ≠ nl := by
      intro h
      exact hnl (h ▸ List.mem_cons_self c l')
    have hl' : nl ∉ l' := fun h => hnl (List.mem_cons_of_mem c h)
    rw [rustLinesAux]
    simp only [hc, if_false]
    rw [ih (c :: acc) hl']
    have he : ((c :: acc).reverse ++ l') = acc.reverse ++ c :: l' := by
      rw [List.reverse_cons, List.append_assoc]
      rfl
    rw [he]

lemma stripCrRev_of_not_cr (l : List Char) (h : l.getLast? ≠ some cr) :
    stripCrRev l.reverse = l := by
  rcases hrev : l.reverse with _ | ⟨c, rest⟩
  · have : l = [] := List.reverse_eq_nil_iff.mp hrev
    rw [this]
    rfl
  · have hl : l = rest.reverse ++ [c] := by
      have h1 := congrArg List.reverse hrev
      rw [List.reverse_reverse] at h1
      rw [h1, List.reverse_cons]
    have hlast : l.getLast? = some c := by
      rw [hl]
      exact List.getLast?_concat _
    have hcr : c ≠ cr := by
      intro hcc
      exact h (by rw [hlast, hcc])
    rw [stripCrRev]
    simp only [hcr, if_false]
    rw [← hrev, List.reverse_reverse]

lemma rustLinesAux_split_nil (l rest : List Char) (h : nl ∉ l) :
    rustLinesAux (l ++ nl :: rest) [] = stripCrRev l.reverse :: rustLinesAux rest [] := by
  rw [rustLinesAux_split l rest [] h, List.append_nil]

/-- Rebuilding a joined line list terminated by a newline splits back to the
same lines, provided no line contains a newline or ends in a carriage return. -/
lemma rustLines_joinWith_nl : ∀ (out : List (List Char)), out ≠ [] →
    (∀ y ∈ out, (∀ a ∈ y, a ≠ nl) ∧ y.getLast? ≠ some cr) →
    rustLines (joinWith [nl] out ++ [nl]) = out := by
  intro out
  induction out with
  | nil => intro h _; exact absurd rfl h
  | cons y out' ih =>
    intro _ hall
    have hy := hall y (List.mem_cons_self y out')
    have hynl : nl ∉ y := fun h => (hy.1 nl h) rfl
    cases out' with
    | nil =>
      show rustLines (y ++ [nl]) = [y]
      rw [rustLines, show y ++ [nl] = y ++ nl :: [] from rfl, rustLinesAux_split_nil y [] hynl,
        stripCrRev_of_not_cr y hy.2]
      rfl
    | cons y2 out'' =>
      have hall' : ∀ z ∈ y2 :: out'', (∀ a ∈ z, a ≠ nl) ∧ z.getLast? ≠ some cr :=
        fun z hz => hall z (List.mem_cons_of_mem y hz)
      have hjoin : joinWith [nl] (y :: y2 :: out'') = y ++ [nl] ++ joinWith [nl] (y2 :: out'') :=
        rfl
      rw [rustLines, hjoin]
      have hassoc : (y ++ [nl] ++ joinWith [nl] (y2 :: out'')) ++ [nl] =
          y ++ nl :: (joinWith [nl] (y2 :: out'') ++ [nl]) := by
        simp [List.append_assoc]
      rw [hassoc, rustLinesAux_split_nil _ _ hynl, stripCrRev_of_not_cr y hy.2]
      rw [show rustLinesAux (joinWith [nl] (y2 :: out'') ++ [nl]) [] =
        rustLines (joinWith [nl] (y2 :: out'') ++ [nl]) from rfl]
      rw [ih (by simp) hall']

/-- Rebuilding a joined line list with no trailing newline splits back to the
same lines, provided additionally the last line is nonempty. -/
lemma rustLines_joinWith_no_trailing : ∀ (out : List (List Char)) (z : List Char),
    out.getLast? = some z → z ≠ [] →
    (∀ y ∈ out, (∀ a ∈ y, a ≠ nl) ∧ y.getLast? ≠ some cr) →
    rustLines (joinWith [nl] out) = out := by
  intro out
  induction out with
  | nil => intro z hz _ _; simp at hz
  | cons y out' ih =>
    intro z hz hzne hall
    have hy := hall y (List.mem_cons_self y out')
    have hynl : nl ∉ y := fun h => (hy.1 nl h) rfl
    cases out' with
    | nil =>
      have hzy : z = y := by simpa using hz.symm
      subst hzy
      show rustLines z = [z]
      rw [rustLines, rustLinesAux_no_newline z [] hynl]
      have : (([] : List Char).reverse ++ z) = z := by simp
      rw [this]
      have hie : z.isEmpty = false := by simp [List.isEmpty_iff, hzne]
      simp [hie]
    | cons y2 out'' =>
      have hz' : (y2 :: out'').getLast? = some z := by
        rw [← hz, List.getLast?_cons_cons]
      have hall' : ∀ w ∈ y2 :: out'', (∀ a ∈ w, a ≠ nl) ∧ w.getLast? ≠ some cr :=
        fun w hw => hall w (List.mem_cons_of_mem y hw)
      have hjoin : joinWith [nl] (y :: y2 :: out'') = y ++ [nl] ++ joinWith [nl] (y2 :: out'') :=
        rfl
      rw [rustLines, hjoin]
      have hassoc : (y ++ [nl] ++ joinWith [nl] (y2 :: out'')) =
          y ++ nl :: joinWith [nl] (y2 :: out'') := by
        simp [List.append_assoc]
      rw [hassoc, rustLinesAux_split_nil _ _ hynl, stripCrRev_of_not_cr y hy.2]
      rw [show rustLinesAux (joinWith [nl] (y2 :: out'')) [] =
        rustLines (joinWith [nl] (y2 :: out'')) from rfl]
      rw [ih z hz' hzne hall']

/-- If the input is nonempty and does not end in a newline, the last line of
the split is nonempty. -/
lemma rustLinesAux_getLast : ∀ (s acc : List Char),
    (s = [] → acc ≠ []) → (s ≠ [] → s.getLast? ≠ some nl) →
    ∃ l, (rustLinesAux s acc).getLast? = some l ∧ l ≠ [] := by
  intro s
  induction s with
  | nil =>
    intro acc h1 _
    have hacc := h1 rfl
    rw [rustLinesAux]
    have hie : acc.isEmpty = false := by simp [List.isEmpty_iff, hacc]
    simp only [hie, Bool.false_eq_true, if_false]
    refine ⟨acc.reverse, by simp, ?_⟩
    simpa using hacc
  | cons c cs ih =>
    intro acc _ h2
    rw [rustLinesAux]
    by_cases hc : c = nl
    · subst hc
      rw [if_pos rfl]
      cases cs with
      | nil =>
        exfalso
        have hbad := h2 (by simp)
        simp at hbad
      | cons d ds =>
        have hne : rustLinesAux (d :: ds) [] ≠ [] := by
          intro h
          obtain ⟨h1, _⟩ := rustLinesAux_eq_nil _ _ h
          simp at h1
        have hlastcs : d :: ds ≠ [] → (d :: ds).getLast? ≠ some nl := by
          intro _
          have hs := h2 (by simp)
          rw [List.getLast?_cons_cons] at hs
          exact hs
        obtain ⟨l, hl, hlne⟩ := ih [] (fun h => by simp at h) hlastcs
        refine ⟨l, ?_, hlne⟩
        rw [show stripCrRev acc :: rustLinesAux (d :: ds) [] =
          [stripCrRev acc] ++ rustLinesAux (d :: ds) [] from rfl]
        rw [List.getLast?_append_of_ne_nil _ hne]
        exact hl
    · simp only [hc, if_false]
      refine ih (c :: acc) (fun _ => by simp) ?_
      intro hcs
      have hs := h2 (by simp)
      cases cs with
      | nil => exact absurd rfl hcs
      | cons d ds =>
        rw [List.getLast?_cons_cons] at hs
        exact hs

lemma rustLines_getLast (s : List Char) (hne : s ≠ []) (h : s.getLast? ≠ some nl) :
    ∃ l, (rustLines s).getLast? = some l ∧ l ≠ [] :=
  rustLinesAux_getLast s [] (fun hs => absurd hs hne) (fun _ => h)

lemma joinWith_ne_nil : ∀ (out : List (List Char)) (z : List Char),
    out.getLast? = some z → z ≠ [] → joinWith [nl] out ≠ [] := by
  intro out
  induction out with
  | nil => intro z hz _; simp at hz
  | cons y out' ih =>
    intro z hz hzne
    cases out' with
    | nil =>
      have hzy : z = y := by simpa using hz.symm
      subst hzy
      exact hzne
    | cons y2 out'' =>
      show y ++ [nl] ++ joinWith [nl] (y2 :: out'') ≠ []
      simp

lemma joinWith_getLast_ne_nl : ∀ (out : List (List Char)) (z : List Char),
    out.getLast? = some z → z ≠ [] → (∀ a ∈ z, a ≠ nl) →
    (joinWith [nl] out).getLast? ≠ some nl := by
  intro out
  induction out with
  | nil => intro z hz _ _; simp at hz
  | cons y out' ih =>
    intro z hz hzne hznl
    cases out' with
    | nil =>
      have hzy : z = y := by simpa using hz.symm
      subst hzy
      have hred : joinWith [nl] [z] = z := rfl
      rw [hred]
      rcases List.eq_nil_or_concat z with hznil | ⟨L, a, hza⟩
      · exact absurd hznil hzne
      · subst hza
        rw [List.concat_eq_append, List.getLast?_concat]
        intro hcon
        injection hcon with hcon
        exact (hznl a (by simp [List.concat_eq_append])) hcon
    | cons y2 out'' =>
      have hz' : (y2 :: out'').getLast? = some z := by
        rw [← hz, List.getLast?_cons_cons]
      have hJne : joinWith [nl] (y2 :: out'') ≠ [] := joinWith_ne_nil _ z hz' hzne
      have hjoin : joinWith [nl] (y :: y2 :: out'') =
          y ++ [nl] ++ joinWith [nl] (y2 :: out'') := rfl
      rw [hjoin, List.append_assoc]
      have h1 : ([nl] ++ joinWith [nl] (y2 :: out'')) ≠ [] := by simp
      rw [List.getLast?_append_of_ne_nil _ h1]
      rw [List.getLast?_append_of_ne_nil _ hJne]
      exact ih z hz' hzne hznl

lemma endsNlB_concat_nl (s : List Char) : endsNlB (s ++ [nl]) = true := by
  rw [endsNlB, List.getLast?_concat]
  simp

lemma endsNlB_false_getLast (s : List Char) (h : endsNlB s = false) : s.getLast? ≠ some nl := by
  intro hh
  rw [endsNlB, hh] at h
  simp at h

lemma endsNlB_nil : endsNlB [] = false := by decide

/-- The lines emitted by the top-level run of the squeezer contain no newline. -/
lemma run_out_no_nl (content : List Char) :
    ∀ y ∈ run (rustLines content) false false [] [], ∀ a ∈ y, a ≠ nl :=
  run_mem (fun y => ∀ a ∈ y, a ≠ nl) (rustLines content) false false [] []
    (rustLines_no_nl content) (by intro y hy; simp at hy) (by intro y hy; simp at hy)

/-- Trailing newline parity: the output of the squeezer ends with a newline
iff the input does. -/
lemma endsNl_squeeze (content : List Char) :
    endsNlB (squeeze_imports content) = endsNlB content := by
  rw [squeeze_imports_eq_run]
  by_cases h : endsNlB content = true
  · rw [h]
    simp only [if_true]
    rw [endsNlB_concat_nl]
  · rw [Bool.not_eq_true] at h
    rw [h]
    simp only [Bool.false_eq_true, if_false]
    by_cases hout : run (rustLines content) false false [] [] = []
    · rw [hout]
      exact endsNlB_nil
    · have hls : rustLines content ≠ [] := by
        intro hh
        apply hout
        rw [hh]
        rfl
      have hcne : content ≠ [] := by
        intro hh
        apply hls
        rw [hh]
        rfl
      obtain ⟨lastline, hll, hllne⟩ :=
        rustLines_getLast content hcne (endsNlB_false_getLast content h)
      obtain ⟨l, hl, hor⟩ := run_getLast (rustLines content) false false [] [] hls
        (by intro c hc; simp at hc) (fun hh => ⟨rfl, rfl⟩) (fun _ => ⟨rfl, rfl⟩)
      have hlne : l ≠ [] := by
        rcases hor with h1 | h1
        · rw [hll] at h1
          injection h1 with h1
          rw [← h1]
          exact hllne
        · exact h1
      have hnl : ∀ a ∈ l, a ≠ nl :=
        run_out_no_nl content l (List.mem_of_mem_getLast? hl)
      have hfin := joinWith_getLast_ne_nl (run (rustLines content) false false [] []) l hl
        hlne hnl
      rw [endsNlB]
      rw [beq_eq_false_iff_ne]
      exact hfin

/-- C8: for every input string, the output of `squeeze_imports` ends with a
newline iff the input ends with a newline. -/
theorem claim_c8 (content : List Char) :
    endsNlB (squeeze_imports content) = endsNlB content :=
  endsNl_squeeze content

/-- The round trip: under the no-carriage-return-at-line-end hypothesis,
splitting the squeezer's output recovers exactly the emitted lines. -/
lemma rustLines_squeeze (content : List Char)
    (hcr : ∀ y ∈ rustLines content, y.getLast? ≠ some cr) :
    rustLines (squeeze_imports content) = run (rustLines content) false false [] [] := by
  have hprop : ∀ y ∈ run (rustLines content) false false [] [],
      (∀ a ∈ y, a ≠ nl) ∧ y.getLast? ≠ some cr :=
    run_mem (fun y => (∀ a ∈ y, a ≠ nl) ∧ y.getLast? ≠ some cr) (rustLines content)
      false false [] []
      (fun y hy => ⟨rustLines_no_nl content y hy, hcr y hy⟩)
      (by intro y hy; simp at hy) (by intro y hy; simp at hy)
  rw [squeeze_imports_eq_run]
  by_cases h : endsNlB content = true
  · rw [h]
    simp only [if_true]
    have hcnn : content ≠ [] := by
      intro hh
      rw [hh, endsNlB_nil] at h
      cases h
    have hls : rustLines content ≠ [] := fun hh => hcnn (rustLines_eq_nil content hh)
    have hout : run (rustLines content) false false [] [] ≠ [] := by
      cases hlsc : rustLines content with
      | nil => exact absurd hlsc hls
      | cons y ys => exact run_cons_ne_nil ys false false [] [] y
    exact rustLines_joinWith_nl _ hout hprop
  · rw [Bool.not_eq_true] at h
    rw [h]
    simp only [Bool.false_eq_true, if_false]
    by_cases hout : run (rustLines content) false false [] [] = []
    · rw [hout]
      rfl
    · have hls : rustLines content ≠ [] := fun hh => hout (by rw [hh]; rfl)
      have hcne : content ≠ [] := fun hh => hls (by rw [hh]; rfl)
      obtain ⟨lastline, hll, hllne⟩ :=
        rustLines_getLast content hcne (endsNlB_false_getLast content h)
      obtain ⟨l, hl, hor⟩ := run_getLast (rustLines content) false false [] [] hls
        (by intro c hc; simp at hc) (fun _ => ⟨rfl, rfl⟩) (fun _ => ⟨rfl, rfl⟩)
      have hlne : l ≠ [] := by
        rcases hor with h1 | h1
        · rw [hll] at h1
          injection h1 with h1
          rw [← h1]
          exact hllne
        · exact h1
      exact rustLines_joinWith_no_trailing _ l hl hlne hprop

/-! ## Idempotence of the squeezer machine -/

/-- Re-running the machine over flushed pending comment lines re-pends them. -/
lemma run_pcl : ∀ (pcnew X pb0 pc0 : List (List Char)),
    (∀ y ∈ pcnew, is_comment_line y = true ∧ blankB y = false ∧ openerish y = false) →
    run (pcnew ++ X) false true pb0 pc0 = run X false true pb0 (pc0 ++ pcnew) := by
  intro pcnew
  induction pcnew with
  | nil =>
    intro X pb0 pc0 _
    rw [List.nil_append, List.append_nil]
  | cons y rest ih =>
    intro X pb0 pc0 hall
    obtain ⟨hc, hbl, hA⟩ := hall y (List.mem_cons_self y rest)
    rw [List.cons_append, run_cons_comment y (rest ++ X) pb0 pc0 hA hbl hc]
    rw [ih X pb0 (pc0 ++ [y]) (fun z hz => hall z (List.mem_cons_of_mem y hz))]
    rw [List.append_assoc]
    rfl

/-- Re-running the machine over flushed pending blank lines re-pends them. -/
lemma run_pbl : ∀ (pbnew X pb0 pc0 : List (List Char)),
    (∀ y ∈ pbnew, blankB y = true) →
    run (pbnew ++ X) false true pb0 pc0 = run X false true (pb0 ++ pbnew) pc0 := by
  intro pbnew
  induction pbnew with
  | nil =>
    intro X pb0 pc0 _
    rw [List.nil_append, List.append_nil]
  | cons y rest ih =>
    intro X pb0 pc0 hall
    have hbl := hall y (List.mem_cons_self y rest)
    have hA := blank_not_openerish y hbl
    rw [List.cons_append, run_cons_blank y (rest ++ X) pb0 pc0 hA hbl]
    rw [ih X (pb0 ++ [y]) pc0 (fun z hz => hall z (List.mem_cons_of_mem y hz))]
    rw [List.append_assoc]
    rfl

/-- Running the machine over its own output reproduces the output. -/
lemma run_run : ∀ (ls : List (List Char)) (m b : Bool) (pb pc : List (List Char)),
    (m = true → pb = [] ∧ pc = []) →
    (b = false → pb = [] ∧ pc = []) →
    (∀ y ∈ pb, blankB y = true) →
    (∀ y ∈ pc, is_comment_line y = true ∧ blankB y = false ∧ openerish y = false) →
    run (run ls m b pb pc) m b [] [] = run ls m b pb pc := by
  intro ls
  induction ls with
  | nil =>
    intro m b pb pc hm hb hpb hpc
    rw [run_nil_eq]
    by_cases hpbe : pb = []
    · subst hpbe
      by_cases hpce : pc = []
      · subst hpce
        rw [List.nil_append, run_nil_eq]
        rfl
      · have hbt : b = true := by
          cases b
          · exact absurd (hb rfl).2 hpce
          · rfl
        have hmf : m = false := by
          cases m
          · rfl
          · exact absurd (hm rfl).2 hpce
        subst hbt
        subst hmf
        rw [List.nil_append]
        calc run pc false true [] []
            = run (pc ++ []) false true [] [] := by rw [List.append_nil]
          _ = run [] false true [] ([] ++ pc) := run_pcl pc [] [] [] hpc
          _ = pc := by rw [run_nil_eq, List.nil_append, List.nil_append]
    · have hbt : b = true := by
        cases b
        · exact absurd (hb rfl).1 hpbe
        · rfl
      have hmf : m = false := by
        cases m
        · rfl
        · exact absurd (hm rfl).1 hpbe
      subst hbt
      subst hmf
      calc run (pb ++ pc) false true [] []
          = run pc false true ([] ++ pb) [] := run_pbl pb pc [] [] hpb
        _ = run (pc ++ []) false true pb [] := by rw [List.append_nil, List.nil_append]
        _ = run [] false true pb ([] ++ pc) := run_pcl pc [] pb [] hpc
        _ = pb ++ pc := by rw [run_nil_eq, List.nil_append]
  | cons x ls ih =>
    intro m b pb pc hm hb hpb hpc
    have hnilb : ∀ y ∈ ([] : List (List Char)), blankB y = true := by
      intro y hy; simp at hy
    have hnilc : ∀ y ∈ ([] : List (List Char)),
        is_comment_line y = true ∧ blankB y = false ∧ openerish y = false := by
      intro y hy; simp at hy
    cases m with
    | true =>
      obtain ⟨hpb1, hpc1⟩ := hm rfl
      subst hpb1
      subst hpc1
      rw [run_cons_multiline, run_cons_multiline]
      congr 1
      exact ih (is_in_multiline_import x true) b [] [] (fun _ => ⟨rfl, rfl⟩)
        (fun _ => ⟨rfl, rfl⟩) hnilb hnilc
    | false =>
      by_cases hA : openerish x = true
      · rw [run_cons_import x ls b pb pc hA]
        cases b with
        | false =>
          obtain ⟨hpb1, hpc1⟩ := hb rfl
          subst hpb1
          subst hpc1
          rw [List.nil_append]
          rw [show ([x] : List (List Char)) ++
            run ls (is_in_multiline_import x false) true [] [] =
            x :: run ls (is_in_multiline_import x false) true [] [] from rfl]
          rw [run_cons_import x (run ls (is_in_multiline_import x false) true [] [])
            false [] [] hA]
          rw [ih (is_in_multiline_import x false) true [] [] (fun _ => ⟨rfl, rfl⟩)
            (fun _ => ⟨rfl, rfl⟩) hnilb hnilc]
          rfl
        | true =>
          have h1 : run (pc ++ [x] ++ run ls (is_in_multiline_import x false) true [] [])
              false true [] [] =
              run ([x] ++ run ls (is_in_multiline_import x false) true [] [])
                false true [] ([] ++ pc) := by
            rw [List.append_assoc]
            exact run_pcl pc _ [] [] hpc
          have h2 : run ([x] ++ run ls (is_in_multiline_import x false) true [] [])
              false true [] pc =
              pc ++ [x] ++ run (run ls (is_in_multiline_import x false) true [] [])
                (is_in_multiline_import x false) true [] [] :=
            run_cons_import x _ true [] pc hA
          rw [h1, List.nil_append, h2,
            ih (is_in_multiline_import x false) true [] [] (fun _ => ⟨rfl, rfl⟩)
              (fun _ => ⟨rfl, rfl⟩) hnilb hnilc]
      · rw [Bool.not_eq_true] at hA
        cases b with
        | false =>
          obtain ⟨hpb1, hpc1⟩ := hb rfl
          subst hpb1
          subst hpc1
          rw [run_cons_pass x ls [] [] hA]
          rw [run_cons_pass x (run ls false false [] []) [] [] hA]
          congr 1
          exact ih false false [] [] (fun h => nomatch h) (fun _ => ⟨rfl, rfl⟩)
            hnilb hnilc
        | true =>
          by_cases hbl : blankB x = true
          · rw [run_cons_blank x ls pb pc hA hbl]
            exact ih false true (pb ++ [x]) pc (fun h => nomatch h) (fun h => nomatch h)
              (by
                intro y hy
                rcases List.mem_append.mp hy with h1 | h1
                · exact hpb y h1
                · rw [List.mem_singleton.mp h1]; exact hbl) hpc
          · rw [Bool.not_eq_true] at hbl
            by_cases hc : is_comment_line x = true
            · rw [run_cons_comment x ls pb pc hA hbl hc]
              exact ih false true pb (pc ++ [x]) (fun h => nomatch h) (fun h => nomatch h)
                hpb
                (by
                  intro y hy
                  rcases List.mem_append.mp hy with h1 | h1
                  · exact hpc y h1
                  · rw [List.mem_singleton.mp h1]; exact ⟨hc, hbl, hA⟩)
            · rw [Bool.not_eq_true] at hc
              rw [run_cons_term x ls pb pc hA hbl hc]
              have hR := ih false false [] [] (fun h => nomatch h) (fun _ => ⟨rfl, rfl⟩)
                hnilb hnilc
              have h1 : run (pb ++ pc ++ [x] ++ run ls false false [] []) false true [] [] =
                  run (pc ++ ([x] ++ run ls false false [] [])) false true ([] ++ pb) [] := by
                rw [show pb ++ pc ++ [x] ++ run ls false false [] [] =
                  pb ++ (pc ++ ([x] ++ run ls false false [] [])) by
                    simp [List.append_assoc]]
                exact run_pbl pb _ [] [] hpb
              have h2 : run (pc ++ ([x] ++ run ls false false [] [])) false true pb [] =
                  run ([x] ++ run ls false false [] []) false true pb ([] ++ pc) :=
                run_pcl pc _ pb [] hpc
              have h3 : run ([x] ++ run ls false false [] []) false true pb pc =
                  pb ++ pc ++ [x] ++ run (run ls false false [] []) false false [] [] :=
                run_cons_term x _ pb pc hA hbl hc
              rw [h1, List.nil_append, h2, List.nil_append, h3, hR]

/-! ## Claim C2: idempotence -/

/-- C2 counterexample: `squeeze_imports` is not idempotent on all inputs. On
"x\r\r\n" the single split line is "x\r" (only the CRLF terminator's CR is
stripped), so the first application yields "x\r\n" and the second "x\n". -/
theorem claim_c2_counterexample :
    squeeze_imports (squeeze_imports (lit "x\r\r\n")) ≠ squeeze_imports (lit "x\r\r\n") := by
  decide

/-- C2 amended: `squeeze_imports` is idempotent on every input none of whose
lines (under the native line split) ends with a carriage return — in
particular on every input that contains no carriage return. -/
theorem claim_c2 (x : List Char)
    (hcr : ∀ y ∈ rustLines x, y.getLast? ≠ some cr) :
    squeeze_imports (squeeze_imports x) = squeeze_imports x := by
  have hrt := rustLines_squeeze x hcr
  have hrr := run_run (rustLines x) false false [] [] (fun h => nomatch h)
    (fun _ => ⟨rfl, rfl⟩) (by intro y hy; simp at hy) (by intro y hy; simp at hy)
  rw [squeeze_imports_eq_run (squeeze_imports x), endsNl_squeeze x, hrt, hrr,
    ← squeeze_imports_eq_run x]

/-- C2 witness: a concrete input satisfying the hypothesis, with the amended
idempotence instantiated on it. -/
theorem claim_c2_witness :
    (∀ y ∈ rustLines (lit "import a\n\nimport b\n\nconst x = 1\n"),
      y.getLast? ≠ some cr) ∧
    squeeze_imports (squeeze_imports (lit "import a\n\nimport b\n\nconst x = 1\n")) =
      squeeze_imports (lit "import a\n\nimport b\n\nconst x = 1\n") :=
  ⟨by decide, claim_c2 (lit "import a\n\nimport b\n\nconst x = 1\n") (by decide)⟩

/-! ## Claim C3: the no-imports fixed point -/

/-- Does the string contain a carriage return immediately followed by a line
feed (the CRLF sequence the line splitter folds away)? -/
def hasCRLF : List Char → Bool
  | [] => false
  | [_] => false
  | a :: b :: rest => (a == cr && b == nl) || hasCRLF (b :: rest)

lemma hasCRLF_append_crnl : ∀ (pre suf : List Char),
    hasCRLF (pre ++ cr :: nl :: suf) = true := by
  intro pre
  induction pre with
  | nil =>
    intro suf
    simp [hasCRLF]
  | cons a pre' ih =>
    intro suf
    cases pre' with
    | nil =>
      show hasCRLF (a :: cr :: nl :: suf) = true
      rw [hasCRLF]
      rw [show hasCRLF (cr :: nl :: suf) = true from ih suf]
      simp
    | cons b pre'' =>
      show hasCRLF (a :: b :: (pre'' ++ cr :: nl :: suf)) = true
      rw [hasCRLF]
      rw [show hasCRLF (b :: (pre'' ++ cr :: nl :: suf)) = true from ih suf]
      simp

lemma hasCRLF_tail (a : Char) (rest : List Char) (h : hasCRLF (a :: rest) = false) :
    hasCRLF rest = false := by
  cases rest with
  | nil => rfl
  | cons b rest' =>
    rw [hasCRLF] at h
    exact (Bool.or_eq_false_iff.mp h).2

lemma hasCRLF_append_right : ∀ (pre suf : List Char),
    hasCRLF (pre ++ suf) = false → hasCRLF suf = false := by
  intro pre
  induction pre with
  | nil => intro suf h; exact h
  | cons a pre' ih =>
    intro suf h
    exact ih suf (hasCRLF_tail a (pre' ++ suf) h)

lemma endsNlB_reverse_head (acc : List Char) (hacc : ∀ a ∈ acc, a ≠ nl) :
    endsNlB acc.reverse = false := by
  cases acc with
  | nil => exact endsNlB_nil
  | cons c rest =>
    rw [endsNlB, beq_eq_false_iff_ne]
    intro hh
    rw [List.reverse_cons, List.getLast?_concat] at hh
    injection hh with hh
    exact (hacc c (List.mem_cons_self c rest)) hh

/-- Rebuilding: joining the split lines and restoring the trailing newline
reproduces the input, provided the input contains no CRLF sequence. -/
lemma rebuild_aux : ∀ (s acc : List Char), (∀ a ∈ acc, a ≠ nl) →
    hasCRLF (acc.reverse ++ s) = false →
    joinWith [nl] (rustLinesAux s acc) ++
      (if endsNlB (acc.reverse ++ s) then [nl] else []) = acc.reverse ++ s := by
  intro s
  induction s with
  | nil =>
    intro acc hacc _
    rw [rustLinesAux, List.append_nil]
    by_cases hae : acc.isEmpty
    · have h0 : acc = [] := List.isEmpty_iff.mp hae
      subst h0
      simp [endsNlB_nil, joinWith]
    · have h0 : acc ≠ [] := fun h => hae (by rw [h]; rfl)
      simp only [hae, Bool.false_eq_true, if_false]
      rw [endsNlB_reverse_head acc hacc]
      simp only [Bool.false_eq_true, if_false]
      show joinWith [nl] [acc.reverse] ++ [] = acc.reverse
      rw [List.append_nil]
      rfl
  | cons c cs ih =>
    intro acc hacc hnc
    rw [rustLinesAux]
    by_cases hc : c = nl
    · subst hc
      rw [if_pos rfl]
      have hstrip : stripCrRev acc = acc.reverse := by
        cases acc with
        | nil => rfl
        | cons d rest =>
          rw [stripCrRev]
          have hd : d ≠ cr := by
            intro hdd
            subst hdd
            have : (cr :: rest).reverse ++ nl :: cs = rest.reverse ++ cr :: nl :: cs := by
              rw [List.reverse_cons, List.append_assoc]
              rfl
            rw [this, hasCRLF_append_crnl] at hnc
            cases hnc
          simp [hd]
      rw [hstrip]
      cases hcs : rustLinesAux cs [] with
      | nil =>
        obtain ⟨hcs1, _⟩ := rustLinesAux_eq_nil cs [] hcs
        subst hcs1
        have hend : endsNlB (acc.reverse ++ [nl]) = true := endsNlB_concat_nl _
        rw [hend]
        simp only [if_true]
        show joinWith [nl] [acc.reverse] ++ [nl] = acc.reverse ++ [nl]
        rfl
      | cons j1 jrest =>
        have hcsne : cs ≠ [] := by
          intro hh
          rw [hh] at hcs
          simp [rustLinesAux] at hcs
        have hcrlf_cs : hasCRLF cs = false := by
          have := hasCRLF_append_right (acc.reverse ++ [nl]) cs
          apply this
          rw [List.append_assoc]
          exact (by simpa using hnc)
        have hih := ih [] (by intro a ha; simp at ha) (by simpa using hcrlf_cs)
        rw [hcs] at hih
        have hend : endsNlB (acc.reverse ++ nl :: cs) = endsNlB cs := by
          rw [endsNlB, endsNlB]
          have h1 : (acc.reverse ++ nl :: cs).getLast? = (nl :: cs).getLast? :=
            List.getLast?_append_of_ne_nil _ (by simp)
          have h2 : (nl :: cs).getLast? = cs.getLast? := by
            cases cs with
            | nil => exact absurd rfl hcsne
            | cons e es => rw [List.getLast?_cons_cons]
          rw [h1, h2]
        rw [hend]
        show (acc.reverse ++ [nl] ++ joinWith [nl] (j1 :: jrest)) ++
          (if endsNlB cs then [nl] else []) = acc.reverse ++ nl :: cs
        rw [List.append_assoc, List.append_assoc]
        congr 1
        rw [← List.append_assoc]
        rw [show (([nl] : List Char) ++ joinWith [nl] (j1 :: jrest)) ++
          (if endsNlB cs then [nl] else []) =
          [nl] ++ (joinWith [nl] (j1 :: jrest) ++ (if endsNlB cs then [nl] else [])) from by
            rw [List.append_assoc]]
        rw [show joinWith [nl] (j1 :: jrest) ++ (if endsNlB cs then [nl] else []) = cs from by
          simpa using hih]
        rfl
    · simp only [hc, if_false]
      have hres : ((c :: acc).reverse ++ cs) = acc.reverse ++ c :: cs := by
        rw [List.reverse_cons, List.append_assoc]
        rfl
      have hih := ih (c :: acc) (by
        intro a ha
        rcases List.mem_cons.mp ha with h1 | h1
        · rw [h1]; exact hc
        · exact hacc a h1) (by rw [hres]; exact hnc)
      rw [hres] at hih
      exact hih

/-- Joining the split lines and restoring the trailing newline reproduces any
input without a CRLF sequence. -/
lemma rebuild (x : List Char) (h : hasCRLF x = false) :
    joinWith [nl] (rustLines x) ++ (if endsNlB x then [nl] else []) = x := by
  have := rebuild_aux x [] (by intro a ha; simp at ha) (by simpa using h)
  simpa using this

/-- With no import-opener or import-meta-opener lines the machine passes every
line through unchanged. -/
lemma run_no_import (ls : List (List Char)) (h : ∀ y ∈ ls, openerish y = false) :
    run ls false false [] [] = ls := by
  induction ls with
  | nil => rfl
  | cons x ls ih =>
    rw [run_cons_pass x ls [] [] (h x (List.mem_cons_self x ls))]
    rw [ih (fun y hy => h y (List.mem_cons_of_mem x hy))]

/-- C3 counterexample: the claim fails on CRLF input. "a\r\nb" has no import
lines but is rewritten to "a\nb". -/
theorem claim_c3_counterexample :
    (∀ y ∈ rustLines (lit "a\r\nb"),
      is_import_line y = false ∧ is_import_meta_line y = false) ∧
    squeeze_imports (lit "a\r\nb") ≠ lit "a\r\nb" := by
  constructor
  · decide
  · decide

/-- C3 amended: if the input contains no import-opener and no
import-meta-opener lines, and contains no CRLF sequence, then
`squeeze_imports` returns it unchanged. -/
theorem claim_c3 (x : List Char)
    (himp : ∀ y ∈ rustLines x, is_import_line y = false ∧ is_import_meta_line y = false)
    (hcrlf : hasCRLF x = false) :
    squeeze_imports x = x := by
  have hop : ∀ y ∈ rustLines x, openerish y = false := by
    intro y hy
    obtain ⟨h1, h2⟩ := himp y hy
    rw [openerish, h1, h2]
    rfl
  rw [squeeze_imports_eq_run, run_no_import _ hop]
  have hre := rebuild x hcrlf
  by_cases h : endsNlB x = true
  · rw [h] at hre ⊢
    simp only [if_true] at hre ⊢
    exact hre
  · rw [Bool.not_eq_true] at h
    rw [h] at hre ⊢
    simp only [Bool.false_eq_true, if_false] at hre ⊢
    rw [List.append_nil] at hre
    exact hre

/-- C3 witness: a concrete import-free input, returned unchanged. -/
theorem claim_c3_witness :
    (∀ y ∈ rustLines (lit "const x = 1\nconst y = 2\n"),
      is_import_line y = false ∧ is_import_meta_line y = false) ∧
    hasCRLF (lit "const x = 1\nconst y = 2\n") = false ∧
    squeeze_imports (lit "const x = 1\nconst y = 2\n") = lit "const x = 1\nconst y = 2\n" :=
  ⟨by decide, by decide, claim_c3 (lit "const x = 1\nconst y = 2\n") (by decide) (by decide)⟩

/-! ## Claim C4: preservation of non-blank non-comment lines -/

/-- A meaningful line: neither blank nor comment-like. -/
def meaningful (line : List Char) : Bool := !blankB line && !is_comment_line line

lemma filter_meaningful_nil (xs : List (List Char)) (h : ∀ y ∈ xs, meaningful y = false) :
    xs.filter meaningful = [] := by
  induction xs with
  | nil => rfl
  | cons y ys ih =>
    rw [List.filter_cons]
    rw [h y (List.mem_cons_self y ys)]
    simp only [Bool.false_eq_true, if_false]
    exact ih (fun z hz => h z (List.mem_cons_of_mem y hz))

lemma meaningful_false_of_blank (y : List Char) (h : blankB y = true) :
    meaningful y = false := by
  rw [meaningful, h]
  rfl

lemma meaningful_false_of_comment (y : List Char) (h : is_comment_line y = true) :
    meaningful y = false := by
  rw [meaningful, h]
  simp

/-- The machine emits exactly the meaningful lines of its input (plus pending
lines, which are never meaningful), in order. -/
lemma filter_run : ∀ (ls : List (List Char)) (m b : Bool) (pb pc : List (List Char)),
    (∀ y ∈ pb, blankB y = true) →
    (∀ y ∈ pc, is_comment_line y = true) →
    (run ls m b pb pc).filter meaningful = ls.filter meaningful := by
  intro ls
  induction ls with
  | nil =>
    intro m b pb pc hpb hpc
    rw [run_nil_eq, List.filter_append]
    rw [filter_meaningful_nil pb (fun y hy => meaningful_false_of_blank y (hpb y hy))]
    rw [filter_meaningful_nil pc (fun y hy => meaningful_false_of_comment y (hpc y hy))]
    rfl
  | cons x ls ih =>
    intro m b pb pc hpb hpc
    have hnilb : ∀ y ∈ ([] : List (List Char)), blankB y = true := by
      intro y hy; simp at hy
    have hnilc : ∀ y ∈ ([] : List (List Char)), is_comment_line y = true := by
      intro y hy; simp at hy
    cases m with
    | true =>
      rw [run_cons_multiline]
      rw [List.filter_cons, List.filter_cons, ih _ b pb pc hpb hpc]
    | false =>
      by_cases hA : openerish x = true
      · rw [run_cons_import x ls b pb pc hA]
        rw [List.filter_append, List.filter_append]
        rw [filter_meaningful_nil pc (fun y hy => meaningful_false_of_comment y (hpc y hy))]
        rw [ih _ true [] [] hnilb hnilc]
        rw [List.filter_cons]
        cases hmx : meaningful x
        · simp [hmx]
        · simp [hmx]
      · rw [Bool.not_eq_true] at hA
        cases b with
        | false =>
          rw [run_cons_pass x ls pb pc hA]
          rw [List.filter_cons, List.filter_cons, ih _ false pb pc hpb hpc]
        | true =>
          by_cases hbl : blankB x = true
          · rw [run_cons_blank x ls pb pc hA hbl]
            rw [ih _ true (pb ++ [x]) pc (by
              intro y hy
              rcases List.mem_append.mp hy with h1 | h1
              · exact hpb y h1
              · rw [List.mem_singleton.mp h1]; exact hbl) hpc]
            rw [List.filter_cons, meaningful_false_of_blank x hbl]
            simp
          · rw [Bool.not_eq_true] at hbl
            by_cases hc : is_comment_line x = true
            · rw [run_cons_comment x ls pb pc hA hbl hc]
              rw [ih _ true pb (pc ++ [x]) hpb (by
                intro y hy
                rcases List.mem_append.mp hy with h1 | h1
                · exact hpc y h1
                · rw [List.mem_singleton.mp h1]; exact hc)]
              rw [List.filter_cons, meaningful_false_of_comment x hc]
              simp
            · rw [Bool.not_eq_true] at hc
              rw [run_cons_term x ls pb pc hA hbl hc]
              rw [List.filter_append, List.filter_append, List.filter_append]
              rw [filter_meaningful_nil pb
                (fun y hy => meaningful_false_of_blank y (hpb y hy))]
              rw [filter_meaningful_nil pc
                (fun y hy => meaningful_false_of_comment y (hpc y hy))]
              rw [ih _ false [] [] hnilb hnilc]
              rw [List.filter_cons]
              cases hmx : meaningful x
              · simp [hmx]
              · simp [hmx]

/-- C4 counterexample: the filtered line sequences differ on the input
"x\r\r\n" — the input's meaningful line is "x\r" but the output's is "x". -/
theorem claim_c4_counterexample :
    (rustLines (squeeze_imports (lit "x\r\r\n"))).filter meaningful ≠
      (rustLines (lit "x\r\r\n")).filter meaningful := by
  decide

/-- C4 amended: for every input none of whose lines ends with a carriage
return, filtering the output's lines to the non-blank non-comment lines gives
exactly the input's non-blank non-comment lines, in order. -/
theorem claim_c4 (x : List Char)
    (hcr : ∀ y ∈ rustLines x, y.getLast? ≠ some cr) :
    (rustLines (squeeze_imports x)).filter meaningful =
      (rustLines x).filter meaningful := by
  rw [rustLines_squeeze x hcr]
  exact filter_run (rustLines x) false false [] [] (by intro y hy; simp at hy)
    (by intro y hy; simp at hy)

/-- C4 witness: a concrete instance of the amended preservation. -/
theorem claim_c4_witness :
    (∀ y ∈ rustLines (lit "import a\n\n// note\n\nimport b\n\nconst x = 1\n"),
      y.getLast? ≠ some cr) ∧
    (rustLines (squeeze_imports (lit "import a\n\n// note\n\nimport b\n\nconst x = 1\n"))).filter
        meaningful =
      (rustLines (lit "import a\n\n// note\n\nimport b\n\nconst x = 1\n")).filter meaningful :=
  ⟨by decide, claim_c4 (lit "import a\n\n// note\n\nimport b\n\nconst x = 1\n") (by decide)⟩

/-! ## Claim C10: CRLF terminators are rewritten to LF -/

/-- Join a list of lines, terminating every line with the given terminator
(the shape of a file that ends each line with that terminator). -/
def joinTerm (term : List Char) : List (List Char) → List Char
  | [] => []
  | l :: ls => l ++ term ++ joinTerm term ls

lemma rustLines_joinTerm_crlf : ∀ (ls : List (List Char)),
    (∀ y ∈ ls, nl ∉ y ∧ cr ∉ y) → rustLines (joinTerm [cr, nl] ls) = ls := by
  intro ls
  induction ls with
  | nil => intro _; rfl
  | cons y rest ih =>
    intro h
    obtain ⟨hynl, hycr⟩ := h y (List.mem_cons_self y rest)
    have hsplit : joinTerm [cr, nl] (y :: rest) =
        (y ++ [cr]) ++ nl :: joinTerm [cr, nl] rest := by
      show y ++ [cr, nl] ++ joinTerm [cr, nl] rest = (y ++ [cr]) ++ nl :: joinTerm [cr, nl] rest
      simp [List.append_assoc]
    have hnocr : nl ∉ y ++ [cr] := by
      intro hmem
      rcases List.mem_append.mp hmem with h1 | h1
      · exact hynl h1
      · rw [List.mem_singleton] at h1
        exact absurd h1 (by decide)
    rw [rustLines, hsplit, rustLinesAux_split_nil _ _ hnocr]
    have hstrip : stripCrRev (y ++ [cr]).reverse = y := by
      rw [List.reverse_append]
      show stripCrRev (cr :: y.reverse) = y
      rw [stripCrRev]
      simp
    rw [hstrip]
    rw [show rustLinesAux (joinTerm [cr, nl] rest) [] = rustLines (joinTerm [cr, nl] rest)
      from rfl]
    rw [ih (fun z hz => h z (List.mem_cons_of_mem y hz))]

lemma rustLines_joinTerm_lf : ∀ (ls : List (List Char)),
    (∀ y ∈ ls, nl ∉ y ∧ cr ∉ y) → rustLines (joinTerm [nl] ls) = ls := by
  intro ls
  induction ls with
  | nil => intro _; rfl
  | cons y rest ih =>
    intro h
    obtain ⟨hynl, hycr⟩ := h y (List.mem_cons_self y rest)
    have hsplit : joinTerm [nl] (y :: rest) = y ++ nl :: joinTerm [nl] rest := by
      show y ++ [nl] ++ joinTerm [nl] rest = y ++ nl :: joinTerm [nl] rest
      simp [List.append_assoc]
    have hlast : y.getLast? ≠ some cr := by
      intro hh
      exact hycr (List.mem_of_mem_getLast? hh)
    rw [rustLines, hsplit, rustLinesAux_split_nil _ _ hynl, stripCrRev_of_not_cr y hlast]
    rw [show rustLinesAux (joinTerm [nl] rest) [] = rustLines (joinTerm [nl] rest) from rfl]
    rw [ih (fun z hz => h z (List.mem_cons_of_mem y hz))]

lemma endsNl_joinTerm_crlf : ∀ (ls : List (List Char)), ls ≠ [] →
    endsNlB (joinTerm [cr, nl] ls) = true := by
  intro ls
  induction ls with
  | nil => intro h; exact absurd rfl h
  | cons y rest ih =>
    intro _
    show endsNlB (y ++ [cr, nl] ++ joinTerm [cr, nl] rest) = true
    cases rest with
    | nil =>
      rw [endsNlB]
      have : (y ++ [cr, nl] ++ joinTerm [cr, nl] []).getLast? = some nl := by
        rw [show joinTerm [cr, nl] ([] : List (List Char)) = [] from rfl, List.append_nil]
        rw [List.getLast?_append_of_ne_nil _ (show [cr, nl] ≠ [] by simp)]
        rfl
      rw [this]
      simp
    | cons z rest' =>
      have hne : joinTerm [cr, nl] (z :: rest') ≠ [] := by
        show z ++ [cr, nl] ++ joinTerm [cr, nl] rest' ≠ []
        simp
      rw [endsNlB, List.getLast?_append_of_ne_nil _ hne, ← endsNlB]
      exact ih (by simp)

lemma endsNl_joinTerm_lf : ∀ (ls : List (List Char)), ls ≠ [] →
    endsNlB (joinTerm [nl] ls) = true := by
  intro ls
  induction ls with
  | nil => intro h; exact absurd rfl h
  | cons y rest ih =>
    intro _
    show endsNlB (y ++ [nl] ++ joinTerm [nl] rest) = true
    cases rest with
    | nil =>
      rw [endsNlB]
      have : (y ++ [nl] ++ joinTerm [nl] []).getLast? = some nl := by
        rw [show joinTerm [nl] ([] : List (List Char)) = [] from rfl, List.append_nil]
        rw [List.getLast?_append_of_ne_nil _ (show [nl] ≠ [] by simp)]
        rfl
      rw [this]
      simp
    | cons z rest' =>
      have hne : joinTerm [nl] (z :: rest') ≠ [] := by
        show z ++ [nl] ++ joinTerm [nl] rest' ≠ []
        simp
      rw [endsNlB, List.getLast?_append_of_ne_nil _ hne, ← endsNlB]
      exact ih (by simp)

lemma mem_joinWith : ∀ (out : List (List Char)) (a : Char), a ∈ joinWith [nl] out →
    (∃ y ∈ out, a ∈ y) ∨ a = nl := by
  intro out
  induction out with
  | nil => intro a ha; simp [joinWith] at ha
  | cons y out' ih =>
    intro a ha
    cases out' with
    | nil =>
      exact Or.inl ⟨y, List.mem_cons_self y [], ha⟩
    | cons y2 rest =>
      rw [show joinWith [nl] (y :: y2 :: rest) = y ++ [nl] ++ joinWith [nl] (y2 :: rest)
        from rfl] at ha
      rcases List.mem_append.mp ha with h1 | h1
      · rcases List.mem_append.mp h1 with h2 | h2
        · exact Or.inl ⟨y, List.mem_cons_self y _, h2⟩
        · rw [List.mem_singleton] at h2
          exact Or.inr h2
      · rcases ih a h1 with ⟨z, hz, hm⟩ | h2
        · exact Or.inl ⟨z, List.mem_cons_of_mem y hz, hm⟩
        · exact Or.inr h2

/-- C10: on a file whose every line is terminated by CRLF (lines themselves
free of CR and LF), the squeezer behaves exactly as on the LF-terminated file
— the CR of every CRLF terminator is removed and lines are rejoined with LF —
and the CRLF file is always rewritten (its squeezed form differs) even when
no blank lines are removed. -/
theorem claim_c10 (ls : List (List Char)) (h : ∀ y ∈ ls, nl ∉ y ∧ cr ∉ y) :
    squeeze_imports (joinTerm [cr, nl] ls) = squeeze_imports (joinTerm [nl] ls) ∧
    (ls ≠ [] → squeeze_imports (joinTerm [cr, nl] ls) ≠ joinTerm [cr, nl] ls) := by
  constructor
  · by_cases hls : ls = []
    · subst hls
      rfl
    · rw [squeeze_imports_eq_run, squeeze_imports_eq_run, rustLines_joinTerm_crlf ls h,
        rustLines_joinTerm_lf ls h, endsNl_joinTerm_crlf ls hls, endsNl_joinTerm_lf ls hls]
  · intro hls hcontra
    have hcrmem : cr ∈ joinTerm [cr, nl] ls := by
      cases ls with
      | nil => exact absurd rfl hls
      | cons y rest =>
        show cr ∈ y ++ [cr, nl] ++ joinTerm [cr, nl] rest
        simp
    rw [← hcontra] at hcrmem
    rw [squeeze_imports_eq_run, rustLines_joinTerm_crlf ls h,
      endsNl_joinTerm_crlf ls hls] at hcrmem
    simp only [if_true] at hcrmem
    have hout : ∀ y ∈ run ls false false [] [], cr ∉ y :=
      run_mem (fun y => cr ∉ y) ls false false [] [] (fun y hy => (h y hy).2)
        (by intro y hy; simp at hy) (by intro y hy; simp at hy)
    rcases List.mem_append.mp hcrmem with h1 | h1
    · rcases mem_joinWith _ cr h1 with ⟨z, hz, hm⟩ | h2
      · exact hout z hz hm
      · exact absurd h2 (by decide)
    · rw [List.mem_singleton] at h1
      exact absurd h1 (by decide)

/-- C10 witness: a concrete CRLF file with no squeezable blanks is still
rewritten, to its LF form. -/
theorem claim_c10_witness :
    (∀ y ∈ [lit "import a", lit "const x = 1"], nl ∉ y ∧ cr ∉ y) ∧
    squeeze_imports (joinTerm [cr, nl] [lit "import a", lit "const x = 1"]) =
      squeeze_imports (joinTerm [nl] [lit "import a", lit "const x = 1"]) ∧
    squeeze_imports (joinTerm [cr, nl] [lit "import a", lit "const x = 1"]) ≠
      joinTerm [cr, nl] [lit "import a", lit "const x = 1"] :=
  ⟨by decide, (claim_c10 [lit "import a", lit "const x = 1"] (by decide)).1,
    (claim_c10 [lit "import a", lit "const x = 1"] (by decide)).2 (by decide)⟩

/-! ## Claim C1: which blank lines are dropped

To speak about individual input lines being dropped, the machine is
instrumented with input positions: `runIdx` is `run` over position-tagged
lines, classifying each line by its second component. -/

def runIdx : List (Nat × List Char) → Bool → Bool → List (Nat × List Char) →
    List (Nat × List Char) → List (Nat × List Char)
  | [], _, _, pb, pc => pb ++ pc
  | line :: ls, m, b, pb, pc =>
    let trimmed := trim line.2
    let is_blank := trimmed.isEmpty
    let is_comment := is_comment_line trimmed
    let is_import := is_import_line trimmed || is_import_meta_line trimmed || m
    if m then line :: runIdx ls (is_in_multiline_import line.2 true) b pb pc
    else if is_import then
      pc ++ [line] ++ runIdx ls (is_in_multiline_import line.2 false) true [] []
    else if b then
      if is_blank then runIdx ls m b (pb ++ [line]) pc
      else if is_comment then runIdx ls m b pb (pc ++ [line])
      else pb ++ pc ++ [line] ++ runIdx ls m false [] []
    else line :: runIdx ls m b pb pc

lemma runIdx_cons_multiline (x : Nat × List Char) (ls : List (Nat × List Char)) (b : Bool)
    (pb pc : List (Nat × List Char)) :
    runIdx (x :: ls) true b pb pc =
      x :: runIdx ls (is_in_multiline_import x.2 true) b pb pc := by
  simp [runIdx]

lemma runIdx_cons_import (x : Nat × List Char) (ls : List (Nat × List Char)) (b : Bool)
    (pb pc : List (Nat × List Char)) (hA : openerish x.2 = true) :
    runIdx (x :: ls) false b pb pc =
      pc ++ [x] ++ runIdx ls (is_in_multiline_import x.2 false) true [] [] := by
  have h1 : (is_import_line (trim x.2) || is_import_meta_line (trim x.2)) = true := by
    rw [openerish_trim]; exact hA
  simp [runIdx, h1]

lemma runIdx_cons_blank (x : Nat × List Char) (ls : List (Nat × List Char))
    (pb pc : List (Nat × List Char)) (hA : openerish x.2 = false) (hbl : blankB x.2 = true) :
    runIdx (x :: ls) false true pb pc = runIdx ls false true (pb ++ [x]) pc := by
  have h1 : (is_import_line (trim x.2) || is_import_meta_line (trim x.2)) = false := by
    rw [openerish_trim]; exact hA
  have h2 : (trim x.2).isEmpty = true := hbl
  simp [runIdx, h1, h2]

lemma runIdx_cons_comment (x : Nat × List Char) (ls : List (Nat × List Char))
    (pb pc : List (Nat × List Char)) (hA : openerish x.2 = false) (hbl : blankB x.2 = false)
    (hc : is_comment_line x.2 = true) :
    runIdx (x :: ls) false true pb pc = runIdx ls false true pb (pc ++ [x]) := by
  have h1 : (is_import_line (trim x.2) || is_import_meta_line (trim x.2)) = false := by
    rw [openerish_trim]; exact hA
  have h2 : (trim x.2).isEmpty = false := hbl
  have h3 : is_comment_line (trim x.2) = true := by rw [is_comment_line_trim]; exact hc
  simp [runIdx, h1, h2, h3]

lemma runIdx_cons_term (x : Nat × List Char) (ls : List (Nat × List Char))
    (pb pc : List (Nat × List Char)) (hA : openerish x.2 = false) (hbl : blankB x.2 = false)
    (hc : is_comment_line x.2 = false) :
    runIdx (x :: ls) false true pb pc = pb ++ pc ++ [x] ++ runIdx ls false false [] [] := by
  have h1 : (is_import_line (trim x.2) || is_import_meta_line (trim x.2)) = false := by
    rw [openerish_trim]; exact hA
  have h2 : (trim x.2).isEmpty = false := hbl
  have h3 : is_comment_line (trim x.2) = false := by rw [is_comment_line_trim]; exact hc
  simp [runIdx, h1, h2, h3]

lemma runIdx_cons_pass (x : Nat × List Char) (ls : List (Nat × List Char))
    (pb pc : List (Nat × List Char)) (hA : openerish x.2 = false) :
    runIdx (x :: ls) false false pb pc = x :: runIdx ls false false pb pc := by
  have h1 : (is_import_line (trim x.2) || is_import_meta_line (trim x.2)) = false := by
    rw [openerish_trim]; exact hA
  simp [runIdx, h1]

/-- Forgetting the positions recovers the uninstrumented machine. -/
lemma runIdx_map_snd : ∀ (ils : List (Nat × List Char)) (m b : Bool)
    (pb pc : List (Nat × List Char)),
    (runIdx ils m b pb pc).map Prod.snd =
      run (ils.map Prod.snd) m b (pb.map Prod.snd) (pc.map Prod.snd) := by
  intro ils
  induction ils with
  | nil =>
    intro m b pb pc
    rw [runIdx, List.map_nil, run_nil_eq, List.map_append]
  | cons x ls ih =>
    intro m b pb pc
    cases m with
    | true =>
      rw [runIdx_cons_multiline, List.map_cons, List.map_cons, run_cons_multiline, ih]
    | false =>
      by_cases hA : openerish x.2 = true
      · rw [runIdx_cons_import x ls b pb pc hA, List.map_cons,
          run_cons_import x.2 (ls.map Prod.snd) b (pb.map Prod.snd) (pc.map Prod.snd) hA]
        rw [List.map_append, List.map_append, ih]
        rfl
      · rw [Bool.not_eq_true] at hA
        cases b with
        | false =>
          rw [runIdx_cons_pass x ls pb pc hA, List.map_cons, List.map_cons,
            run_cons_pass x.2 (ls.map Prod.snd) (pb.map Prod.snd) (pc.map Prod.snd) hA, ih]
        | true =>
          by_cases hbl : blankB x.2 = true
          · rw [runIdx_cons_blank x ls pb pc hA hbl, List.map_cons,
              run_cons_blank x.2 (ls.map Prod.snd) (pb.map Prod.snd) (pc.map Prod.snd) hA hbl,
              ih]
            rw [List.map_append]
            rfl
          · rw [Bool.not_eq_true] at hbl
            by_cases hc : is_comment_line x.2 = true
            · rw [runIdx_cons_comment x ls pb pc hA hbl hc, List.map_cons,
                run_cons_comment x.2 (ls.map Prod.snd) (pb.map Prod.snd) (pc.map Prod.snd)
                  hA hbl hc, ih]
              rw [List.map_append]
              rfl
            · rw [Bool.not_eq_true] at hc
              rw [runIdx_cons_term x ls pb pc hA hbl hc, List.map_cons,
                run_cons_term x.2 (ls.map Prod.snd) (pb.map Prod.snd) (pc.map Prod.snd)
                  hA hbl hc]
              rw [List.map_append, List.map_append, List.map_append, ih]
              rfl

/-- From inside an import block, does the remaining input reach another
import-branch line (clearing the pending blanks) before a terminator or the
end of the file? -/
def clears : List (List Char) → Bool → Bool
  | [], _ => false
  | line :: ls, m =>
    if m then clears ls (is_in_multiline_import line true)
    else if openerish line then true
    else if blankB line || is_comment_line line then clears ls false
    else false

/-- Per-line fate of the machine: `true` iff the line is emitted. A blank line
met inside an import block survives exactly when no later import-branch line
clears the pending blanks before the block ends. -/
def keep : List (List Char) → Bool → Bool → List Bool
  | [], _, _ => []
  | line :: ls, m, b =>
    if m then true :: keep ls (is_in_multiline_import line true) b
    else if openerish line then true :: keep ls (is_in_multiline_import line false) true
    else if b then
      if blankB line then (!clears ls false) :: keep ls false true
      else if is_comment_line line then true :: keep ls false true
      else true :: keep ls false false
    else true :: keep ls false false

lemma exists_succ_shift (n i len : Nat) (hd : Bool) (tl : List Bool) :
    (∃ o, o < len + 1 ∧ i = n + o ∧ (hd :: tl).getD o false = true) ↔
    ((i = n ∧ hd = true) ∨ ∃ o, o < len ∧ i = (n + 1) + o ∧ tl.getD o false = true) := by
  constructor
  · rintro ⟨o, ho, hi, hk⟩
    cases o with
    | zero => exact Or.inl ⟨by simpa using hi, by simpa using hk⟩
    | succ o' =>
      refine Or.inr ⟨o', by omega, by omega, ?_⟩
      simpa using hk
  · rintro (⟨hi, hk⟩ | ⟨o, ho, hi, hk⟩)
    · exact ⟨0, by omega, by simpa using hi, by simpa using hk⟩
    · exact ⟨o + 1, by omega, by omega, by simpa using hk⟩

/-- Membership of an input position in the instrumented machine's output. -/
lemma mem_runIdx : ∀ (ls : List (List Char)) (n : Nat) (m b : Bool)
    (pb pc : List (Nat × List Char)) (i : Nat),
    (b = false → pb = [] ∧ pc = []) →
    (i ∈ (runIdx (List.enumFrom n ls) m b pb pc).map Prod.fst ↔
      i ∈ pc.map Prod.fst ∨
      (i ∈ pb.map Prod.fst ∧ clears ls m = false) ∨
      ∃ o, o < ls.length ∧ i = n + o ∧ (keep ls m b).getD o false = true) := by
  intro ls
  induction ls with
  | nil =>
    intro n m b pb pc i _
    rw [show List.enumFrom n ([] : List (List Char)) = [] from rfl, runIdx, List.map_append,
      List.mem_append]
    constructor
    · rintro (h | h)
      · exact Or.inr (Or.inl ⟨h, rfl⟩)
      · exact Or.inl h
    · rintro (h | ⟨h, _⟩ | ⟨o, ho, _, _⟩)
      · exact Or.inr h
      · exact Or.inl h
      · simp at ho
  | cons x ls ih =>
    intro n m b pb pc i hb
    rw [show List.enumFrom n (x :: ls) = (n, x) :: List.enumFrom (n + 1) ls from rfl]
    cases m with
    | true =>
      rw [runIdx_cons_multiline, List.map_cons, List.mem_cons]
      rw [ih (n + 1) (is_in_multiline_import x true) b pb pc i hb]
      have hcl : clears (x :: ls) true = clears ls (is_in_multiline_import x true) := by
        simp [clears]
      have hke : keep (x :: ls) true b =
          true :: keep ls (is_in_multiline_import x true) b := by
        simp [keep]
      rw [hcl, hke, show (x :: ls).length = ls.length + 1 from rfl, exists_succ_shift]
      tauto
    | false =>
      by_cases hA : openerish x = true
      · rw [runIdx_cons_import (n, x) _ b pb pc hA, List.map_append, List.map_append,
          List.mem_append, List.mem_append]
        rw [ih (n + 1) (is_in_multiline_import x false) true [] [] i (fun h => nomatch h)]
        have hcl : clears (x :: ls) false = true := by
          simp [clears, hA]
        have hke : keep (x :: ls) false b =
            true :: keep ls (is_in_multiline_import x false) true := by
          simp [keep, hA]
        rw [hcl, hke, show (x :: ls).length = ls.length + 1 from rfl, exists_succ_shift]
        simp only [List.map_cons, List.map_nil, List.mem_singleton, List.not_mem_nil]
        tauto
      · rw [Bool.not_eq_true] at hA
        cases b with
        | false =>
          obtain ⟨hpb1, hpc1⟩ := hb rfl
          subst hpb1
          subst hpc1
          rw [runIdx_cons_pass (n, x) _ [] [] hA, List.map_cons, List.mem_cons]
          rw [ih (n + 1) false false [] [] i (fun _ => ⟨rfl, rfl⟩)]
          have hke : keep (x :: ls) false false = true :: keep ls false false := by
            simp [keep, hA]
          rw [hke, show (x :: ls).length = ls.length + 1 from rfl, exists_succ_shift]
          simp only [List.map_nil, List.not_mem_nil]
          tauto
        | true =>
          by_cases hbl : blankB x = true
          · rw [runIdx_cons_blank (n, x) _ pb pc hA hbl]
            rw [ih (n + 1) false true (pb ++ [(n, x)]) pc i (fun h => nomatch h)]
            have hcl : clears (x :: ls) false = clears ls false := by
              simp [clears, hA, hbl]
            have hke : keep (x :: ls) false true =
                (!clears ls false) :: keep ls false true := by
              simp [keep, hA, hbl]
            rw [hcl, hke, show (x :: ls).length = ls.length + 1 from rfl, exists_succ_shift]
            rw [List.map_append, List.mem_append]
            simp only [List.map_cons, List.map_nil, List.mem_singleton, Bool.not_eq_true']
            tauto
          · rw [Bool.not_eq_true] at hbl
            by_cases hc : is_comment_line x = true
            · rw [runIdx_cons_comment (n, x) _ pb pc hA hbl hc]
              rw [ih (n + 1) false true pb (pc ++ [(n, x)]) i (fun h => nomatch h)]
              have hcl : clears (x :: ls) false = clears ls false := by
                simp [clears, hA, hbl, hc]
              have hke : keep (x :: ls) false true = true :: keep ls false true := by
                simp [keep, hA, hbl, hc]
              rw [hcl, hke, show (x :: ls).length = ls.length + 1 from rfl, exists_succ_shift]
              rw [List.map_append, List.mem_append]
              simp only [List.map_cons, List.map_nil, List.mem_singleton]
              tauto
            · rw [Bool.not_eq_true] at hc
              rw [runIdx_cons_term (n, x) _ pb pc hA hbl hc, List.map_append,
                List.map_append, List.map_append, List.mem_append, List.mem_append,
                List.mem_append]
              rw [ih (n + 1) false false [] [] i (fun _ => ⟨rfl, rfl⟩)]
              have hcl : clears (x :: ls) false = false := by
                simp [clears, hA, hbl, hc]
              have hke : keep (x :: ls) false true = true :: keep ls false false := by
                simp [keep, hA, hbl, hc]
              rw [hcl, hke, show (x :: ls).length = ls.length + 1 from rfl, exists_succ_shift]
              simp only [List.map_cons, List.map_nil, List.mem_singleton, List.not_mem_nil]
              tauto

/-- Input line `i` (0-based) is dropped by the squeezer: its position does not
appear in the instrumented machine's output. -/
def droppedAt (ls : List (List Char)) (i : Nat) : Bool :=
  !(decide (i ∈ (runIdx (List.enumFrom 0 ls) false false [] []).map Prod.fst))

lemma droppedAt_iff (ls : List (List Char)) (i : Nat) (hi : i < ls.length) :
    (droppedAt ls i = true ↔ (keep ls false false).getD i false = false) := by
  have hmem := mem_runIdx ls 0 false false [] [] i (fun _ => ⟨rfl, rfl⟩)
  rw [droppedAt, Bool.not_eq_true', decide_eq_false_iff_not, hmem]
  constructor
  · intro hno
    cases hk : (keep ls false false).getD i false
    · rfl
    · exact absurd (Or.inr (Or.inr ⟨i, hi, by omega, hk⟩)) hno
  · intro hk
    rintro (h | ⟨h, _⟩ | ⟨o, ho, hio, hko⟩)
    · simp at h
    · simp at h
    · have ho2 : o = i := by omega
      subst ho2
      rw [hk] at hko
      cases hko

/-- One step of the (in_multiline, in_import_block) flag pair, as a pure fold
over the lines (the pending lists do not influence these two flags). -/
def mbStep (s : Bool × Bool) (line : List Char) : Bool × Bool :=
  if s.1 then (is_in_multiline_import line true, s.2)
  else if openerish line then (is_in_multiline_import line false, true)
  else (false, s.2 && (blankB line || is_comment_line line))

/-- The (in_multiline, in_import_block) pair in effect when line `i` is
processed. -/
def mbAt (ls : List (List Char)) (i : Nat) : Bool × Bool :=
  (ls.take i).foldl mbStep (false, false)

/-- Is line `i` a continuation line of an unterminated multiline construct? -/
def mstateAt (ls : List (List Char)) (i : Nat) : Bool := (mbAt ls i).1

/-- Is line `i` inside an import block? -/
def blockAt (ls : List (List Char)) (i : Nat) : Bool := (mbAt ls i).2

lemma openerish_not_blank (x : List Char) (h : openerish x = true) : blankB x = false := by
  cases hbl : blankB x
  · rfl
  · rw [blank_not_openerish x hbl] at h
    cases h

/-- The fate of line `i` in terms of the flag pair at `i` and the lines after
it: a line is dropped iff it is a blank, met outside any multiline construct
but inside an import block, and a later import-branch line clears it. -/
lemma keep_getD_gen : ∀ (ls : List (List Char)) (m b : Bool) (i : Nat), i < ls.length →
    ((keep ls m b).getD i false = false ↔
      ((ls.take i).foldl mbStep (m, b)).1 = false ∧
      ((ls.take i).foldl mbStep (m, b)).2 = true ∧
      blankB (ls.getD i []) = true ∧
      clears (ls.drop (i + 1)) false = true) := by
  intro ls
  induction ls with
  | nil =>
    intro m b i hi
    simp at hi
  | cons x ls ih =>
    intro m b i hi
    cases i with
    | zero =>
      rw [List.take_zero, List.foldl_nil]
      rw [show (x :: ls).getD 0 [] = x from rfl, show (x :: ls).drop 1 = ls from rfl]
      cases m with
      | true =>
        have hke : keep (x :: ls) true b =
            true :: keep ls (is_in_multiline_import x true) b := by simp [keep]
        rw [hke, List.getD_cons_zero]
        simp
      | false =>
        by_cases hA : openerish x = true
        · have hke : keep (x :: ls) false b =
              true :: keep ls (is_in_multiline_import x false) true := by simp [keep, hA]
          rw [hke, List.getD_cons_zero]
          rw [openerish_not_blank x hA]
          simp
        · rw [Bool.not_eq_true] at hA
          cases b with
          | false =>
            have hke : keep (x :: ls) false false = true :: keep ls false false := by
              simp [keep, hA]
            rw [hke, List.getD_cons_zero]
            simp
          | true =>
            by_cases hbl : blankB x = true
            · have hke : keep (x :: ls) false true =
                  (!clears ls false) :: keep ls false true := by simp [keep, hA, hbl]
              rw [hke, List.getD_cons_zero, hbl, Bool.not_eq_false']
              simp
            · rw [Bool.not_eq_true] at hbl
              by_cases hc : is_comment_line x = true
              · have hke : keep (x :: ls) false true = true :: keep ls false true := by
                  simp [keep, hA, hbl, hc]
                rw [hke, List.getD_cons_zero, hbl]
                simp
              · rw [Bool.not_eq_true] at hc
                have hke : keep (x :: ls) false true = true :: keep ls false false := by
                  simp [keep, hA, hbl, hc]
                rw [hke, List.getD_cons_zero, hbl]
                simp
    | succ i' =>
      have hi' : i' < ls.length := by simpa using hi
      rw [List.take_succ_cons, List.foldl_cons]
      rw [show (x :: ls).getD (i' + 1) [] = ls.getD i' [] from rfl]
      rw [show (x :: ls).drop (i' + 1 + 1) = ls.drop (i' + 1) from rfl]
      cases m with
      | true =>
        have hke : keep (x :: ls) true b =
            true :: keep ls (is_in_multiline_import x true) b := by simp [keep]
        have hst : mbStep (true, b) x = (is_in_multiline_import x true, b) := by
          simp [mbStep]
        rw [hke, List.getD_cons_succ, hst]
        exact ih (is_in_multiline_import x true) b i' hi'
      | false =>
        by_cases hA : openerish x = true
        · have hke : keep (x :: ls) false b =
              true :: keep ls (is_in_multiline_import x false) true := by simp [keep, hA]
          have hst : mbStep (false, b) x = (is_in_multiline_import x false, true) := by
            simp [mbStep, hA]
          rw [hke, List.getD_cons_succ, hst]
          exact ih (is_in_multiline_import x false) true i' hi'
        · rw [Bool.not_eq_true] at hA
          cases b with
          | false =>
            have hke : keep (x :: ls) false false = true :: keep ls false false := by
              simp [keep, hA]
            have hst : mbStep (false, false) x = (false, false) := by
              simp [mbStep, hA]
            rw [hke, List.getD_cons_succ, hst]
            exact ih false false i' hi'
          | true =>
            by_cases hbl : blankB x = true
            · have hke : keep (x :: ls) false true =
                  (!clears ls false) :: keep ls false true := by simp [keep, hA, hbl]
              have hst : mbStep (false, true) x = (false, true) := by
                simp [mbStep, hA, hbl]
              rw [hke, List.getD_cons_succ, hst]
              exact ih false true i' hi'
            · rw [Bool.not_eq_true] at hbl
              by_cases hc : is_comment_line x = true
              · have hke : keep (x :: ls) false true = true :: keep ls false true := by
                  simp [keep, hA, hbl, hc]
                have hst : mbStep (false, true) x = (false, true) := by
                  simp [mbStep, hA, hbl, hc]
                rw [hke, List.getD_cons_succ, hst]
                exact ih false true i' hi'
              · rw [Bool.not_eq_true] at hc
                have hke : keep (x :: ls) false true = true :: keep ls false false := by
                  simp [keep, hA, hbl, hc]
                have hst : mbStep (false, true) x = (false, false) := by
                  simp [mbStep, hA, hbl, hc]
                rw [hke, List.getD_cons_succ, hst]
                exact ih false false i' hi'

/-- `droppedAt` in terms of the flag pair and `clears`. -/
lemma droppedAt_state (ls : List (List Char)) (i : Nat) (hi : i < ls.length) :
    (droppedAt ls i = true ↔
      mstateAt ls i = false ∧ blockAt ls i = true ∧
      blankB (ls.getD i []) = true ∧ clears (ls.drop (i + 1)) false = true) := by
  rw [droppedAt_iff ls i hi, keep_getD_gen ls false false i hi]
  rfl

lemma mbAt_succ (ls : List (List Char)) (i : Nat) (hi : i < ls.length) :
    mbAt ls (i + 1) = mbStep (mbAt ls i) (ls.getD i []) := by
  rw [mbAt, mbAt, List.take_succ, List.getElem?_eq_getElem hi]
  rw [List.foldl_append, List.getD_eq_getElem ls [] hi]
  rfl

lemma mbAt_stable (ls : List (List Char)) (i : Nat) (hi : ls.length ≤ i) :
    mbAt ls (i + 1) = mbAt ls i := by
  rw [mbAt, mbAt, List.take_succ]
  rw [List.getElem?_eq_none hi]
  simp

lemma getD_drop (ls : List (List Char)) (n k : Nat) :
    (ls.drop n).getD k [] = ls.getD (n + k) [] := by
  by_cases h : n + k < ls.length
  · have h2 : k < (ls.drop n).length := by rw [List.length_drop]; omega
    rw [List.getD_eq_getElem _ _ h2, List.getD_eq_getElem _ _ h, List.getElem_drop]
  · have h1 : ls.length ≤ n + k := by omega
    have h2 : (ls.drop n).length ≤ k := by rw [List.length_drop]; omega
    rw [List.getD_eq_default _ _ h1, List.getD_eq_default _ _ h2]

lemma getD_of_ge (ls : List (List Char)) (n : Nat) (h : ls.length ≤ n) :
    ls.getD n [] = [] := List.getD_eq_default ls [] h

/-- Only an import line has `in_import_block` set while `in_multiline` is set:
a continuation line is always inside an import block. -/
lemma mb_invariant (ls : List (List Char)) : ∀ i, mstateAt ls i = true →
    blockAt ls i = true := by
  intro i
  induction i with
  | zero =>
    intro h
    rw [mstateAt, mbAt, List.take_zero, List.foldl_nil] at h
    cases h
  | succ i' ih =>
    intro h
    by_cases hk : i' < ls.length
    · rw [mstateAt, mbAt_succ ls i' hk] at h
      rw [blockAt, mbAt_succ ls i' hk]
      rw [mbStep] at h ⊢
      by_cases hm : (mbAt ls i').1 = true
      · simp only [hm, if_true] at h ⊢
        exact ih hm
      · rw [Bool.not_eq_true] at hm
        simp only [hm, Bool.false_eq_true, if_false] at h ⊢
        by_cases hop : openerish (ls.getD i' []) = true
        · simp only [hop, if_true]
        · rw [Bool.not_eq_true] at hop
          simp only [hop, Bool.false_eq_true, if_false] at h
    · rw [mstateAt, mbAt_stable ls i' (by omega)] at h
      rw [blockAt, mbAt_stable ls i' (by omega)]
      exact ih h

/-- From a non-multiline position, the multiline flag stays off as long as no
import-branch line occurs. -/
lemma mstate_stays_false (ls : List (List Char)) (i : Nat) (hms : mstateAt ls i = false) :
    ∀ k, i ≤ k →
    (∀ m2, i ≤ m2 → m2 < k → openerish (ls.getD m2 []) = false) →
    mstateAt ls k = false := by
  intro k
  induction k with
  | zero =>
    intro hik _
    have h0 : i = 0 := Nat.le_zero.mp hik
    subst h0
    exact hms
  | succ k' ih =>
    intro hik hop
    rcases Nat.lt_or_ge i (k' + 1) with hlt | hge
    · have hik' : i ≤ k' := by omega
      have hmk' : mstateAt ls k' = false := ih hik' (fun m2 a b => hop m2 a (by omega))
      by_cases hk : k' < ls.length
      · rw [mstateAt, mbAt_succ ls k' hk, mbStep]
        rw [mstateAt] at hmk'
        simp only [hmk', Bool.false_eq_true, if_false]
        have ho := hop k' hik' (by omega)
        simp only [ho, Bool.false_eq_true, if_false]
      · rw [mstateAt, mbAt_stable ls k' (by omega)]
        exact hmk'
    · have h0 : i = k' + 1 := by omega
      subst h0
      exact hms

/-- If `in_import_block` holds at `i`, some earlier import line (opener or
continuation) is separated from `i` only by blank and comment lines. -/
lemma blockAt_exists (ls : List (List Char)) : ∀ i, blockAt ls i = true →
    ∃ j, j < i ∧ (openerish (ls.getD j []) || mstateAt ls j) = true ∧
      ∀ m2, j < m2 → m2 < i →
        (blankB (ls.getD m2 []) || is_comment_line (ls.getD m2 [])) = true := by
  intro i
  induction i with
  | zero =>
    intro h
    rw [blockAt, mbAt, List.take_zero, List.foldl_nil] at h
    cases h
  | succ i' ih =>
    intro h
    by_cases hk : i' < ls.length
    · rw [blockAt, mbAt_succ ls i' hk, mbStep] at h
      by_cases hm : (mbAt ls i').1 = true
      · simp only [hm, if_true] at h
        refine ⟨i', by omega, ?_, fun m2 h1 h2 => by omega⟩
        rw [show mstateAt ls i' = (mbAt ls i').1 from rfl, hm]
        simp
      · rw [Bool.not_eq_true] at hm
        simp only [hm, Bool.false_eq_true, if_false] at h
        by_cases hop : openerish (ls.getD i' []) = true
        · simp only [hop, if_true] at h
          exact ⟨i', by omega, by rw [hop]; simp, fun m2 h1 h2 => by omega⟩
        · rw [Bool.not_eq_true] at hop
          simp only [hop, Bool.false_eq_true, if_false] at h
          rw [Bool.and_eq_true] at h
          obtain ⟨hb2, hbc⟩ := h
          obtain ⟨j, hj1, hj2, hj3⟩ := ih hb2
          refine ⟨j, by omega, hj2, ?_⟩
          intro m2 hm1 hm2
          rcases Nat.lt_or_ge m2 i' with hcase | hcase
          · exact hj3 m2 hm1 hcase
          · have he : m2 = i' := by omega
            subst he
            exact hbc
    · rw [blockAt, mbAt_stable ls i' (by omega)] at h
      obtain ⟨j, hj1, hj2, hj3⟩ := ih h
      refine ⟨j, by omega, hj2, ?_⟩
      intro m2 hm1 hm2
      rcases Nat.lt_or_ge m2 i' with hcase | hcase
      · exact hj3 m2 hm1 hcase
      · rw [getD_of_ge ls m2 (by omega)]
        decide

/-- Conversely, an import line followed only by blank and comment lines up to
`i` puts `i` inside an import block. -/
lemma blockAt_of_between (ls : List (List Char)) (j : Nat) (hj : j < ls.length)
    (himp : (openerish (ls.getD j []) || mstateAt ls j) = true) :
    ∀ i, j < i →
    (∀ m2, j < m2 → m2 < i →
      (blankB (ls.getD m2 []) || is_comment_line (ls.getD m2 [])) = true) →
    blockAt ls i = true := by
  intro i
  induction i with
  | zero => intro h _; omega
  | succ i' ih =>
    intro hji hbet
    rcases Nat.lt_or_ge j i' with hlt | hge
    · have hbi' : blockAt ls i' = true := ih hlt (fun m2 a b => hbet m2 a (by omega))
      by_cases hk : i' < ls.length
      · rw [blockAt, mbAt_succ ls i' hk, mbStep]
        by_cases hm : (mbAt ls i').1 = true
        · simp only [hm, if_true]
          exact hbi'
        · rw [Bool.not_eq_true] at hm
          by_cases hop : openerish (ls.getD i' []) = true
          · simp only [hm, Bool.false_eq_true, if_false, hop, if_true]
          · rw [Bool.not_eq_true] at hop
            simp only [hm, Bool.false_eq_true, if_false, hop]
            rw [Bool.and_eq_true]
            exact ⟨hbi', hbet i' hlt (by omega)⟩
      · rw [blockAt, mbAt_stable ls i' (by omega)]
        exact hbi'
    · have h0 : j = i' := by omega
      subst h0
      rw [blockAt, mbAt_succ ls j hj, mbStep]
      by_cases hm : (mbAt ls j).1 = true
      · simp only [hm, if_true]
        exact mb_invariant ls j hm
      · rw [Bool.not_eq_true] at hm
        have hop : openerish (ls.getD j []) = true := by
          rcases (Bool.or_eq_true _ _).mp himp with h1 | h1
          · exact h1
          · rw [show mstateAt ls j = (mbAt ls j).1 from rfl, hm] at h1
            cases h1
        simp only [hm, Bool.false_eq_true, if_false, hop, if_true]

/-- A clearing run yields a later import line separated only by blank and
comment lines. -/
lemma clears_exists : ∀ (ls' : List (List Char)), clears ls' false = true →
    ∃ k, k < ls'.length ∧ openerish (ls'.getD k []) = true ∧
      ∀ m2, m2 < k →
        (blankB (ls'.getD m2 []) || is_comment_line (ls'.getD m2 [])) = true := by
  intro ls'
  induction ls' with
  | nil =>
    intro h
    rw [clears] at h
    cases h
  | cons x ls'' ih =>
    intro h
    rw [clears] at h
    simp only [Bool.false_eq_true, if_false] at h
    by_cases hop : openerish x = true
    · refine ⟨0, by simp, ?_, fun m2 h2 => by omega⟩
      rw [show (x :: ls'').getD 0 [] = x from rfl]
      exact hop
    · rw [Bool.not_eq_true] at hop
      simp only [hop, Bool.false_eq_true, if_false] at h
      by_cases hbc : (blankB x || is_comment_line x) = true
      · simp only [hbc, if_true] at h
        obtain ⟨k, hk1, hk2, hk3⟩ := ih h
        refine ⟨k + 1, by simpa using hk1, by simpa using hk2, ?_⟩
        intro m2 hm2
        cases m2 with
        | zero => simpa using hbc
        | succ m2' =>
          have := hk3 m2' (by omega)
          simpa using this
      · simp only [hbc, Bool.false_eq_true, if_false] at h

/-- Conversely, a later import line separated only by blank and comment lines
clears the pendings. -/
lemma clears_of_exists : ∀ (ls' : List (List Char)) (k : Nat), k < ls'.length →
    openerish (ls'.getD k []) = true →
    (∀ m2, m2 < k → (blankB (ls'.getD m2 []) || is_comment_line (ls'.getD m2 [])) = true) →
    clears ls' false = true := by
  intro ls'
  induction ls' with
  | nil =>
    intro k hk _ _
    simp at hk
  | cons x ls'' ih =>
    intro k hk hop hbet
    rw [clears]
    simp only [Bool.false_eq_true, if_false]
    by_cases hox : openerish x = true
    · simp only [hox, if_true]
    · rw [Bool.not_eq_true] at hox
      simp only [hox, Bool.false_eq_true, if_false]
      cases k with
      | zero =>
        rw [show (x :: ls'').getD 0 [] = x from rfl] at hop
        rw [hop] at hox
        cases hox
      | succ k' =>
        have hbc : (blankB x || is_comment_line x) = true := by
          have := hbet 0 (by omega)
          simpa using this
        simp only [hbc, if_true]
        refine ih k' (by simpa using hk) (by simpa using hop) ?_
        intro m2 hm2
        have := hbet (m2 + 1) (by omega)
        simpa using this

/-- Is line `i` an import line in the sense of the claim: an import opener, an
import-meta opener, or a continuation line of a multiline construct? -/
def importishAt (ls : List (List Char)) (i : Nat) : Bool :=
  openerish (ls.getD i []) || mstateAt ls i

/-- Does line `i` lie strictly between two import lines, with only blank and
comment lines on the lines in between? -/
def betweenB (ls : List (List Char)) (i : Nat) : Bool :=
  (List.range i).any fun j =>
    importishAt ls j &&
    ((List.range ls.length).any fun k =>
      decide (i < k) && importishAt ls k &&
      ((List.range k).all fun m2 =>
        decide (m2 ≤ j) || blankB (ls.getD m2 []) || is_comment_line (ls.getD m2 [])))

lemma betweenB_iff (ls : List (List Char)) (i : Nat) :
    betweenB ls i = true ↔
    ∃ j, j < i ∧ importishAt ls j = true ∧
      ∃ k, k < ls.length ∧ i < k ∧ importishAt ls k = true ∧
        ∀ m2, j < m2 → m2 < k →
          (blankB (ls.getD m2 []) || is_comment_line (ls.getD m2 [])) = true := by
  rw [betweenB]
  simp only [List.any_eq_true, List.all_eq_true, List.mem_range, Bool.and_eq_true,
    Bool.or_eq_true, decide_eq_true_eq]
  constructor
  · rintro ⟨j, hj, himp, k, hk, ⟨hik, himpk⟩, hall⟩
    refine ⟨j, hj, himp, k, hk, hik, himpk, ?_⟩
    intro m2 h1 h2
    rcases hall m2 h2 with (h3 | h3) | h3
    · omega
    · exact Or.inl h3
    · exact Or.inr h3
  · rintro ⟨j, hj, himp, k, hk, hik, himpk, hbet⟩
    refine ⟨j, hj, himp, k, hk, ⟨hik, himpk⟩, ?_⟩
    intro m2 h2
    by_cases hle : m2 ≤ j
    · exact Or.inl (Or.inl hle)
    · rcases hbet m2 (by omega) h2 with h3 | h3
      · exact Or.inl (Or.inr h3)
      · exact Or.inr h3

/-- The heart of C1: a blank line is dropped iff it lies strictly between
two import lines (with only blank and comment lines in between) and is not
itself a continuation line of a multiline construct. -/
lemma dropped_iff_between (ls : List (List Char)) (i : Nat) (hi : i < ls.length)
    (hblank : blankB (ls.getD i []) = true) :
    (droppedAt ls i = true ↔ (betweenB ls i && !mstateAt ls i) = true) := by
  rw [droppedAt_state ls i hi, Bool.and_eq_true, Bool.not_eq_true', betweenB_iff]
  constructor
  · rintro ⟨hms, hbl, _, hclear⟩
    refine ⟨?_, hms⟩
    obtain ⟨j, hj1, hj2, hj3⟩ := blockAt_exists ls i hbl
    obtain ⟨k', hk1, hk2, hk3⟩ := clears_exists (ls.drop (i + 1)) hclear
    rw [List.length_drop] at hk1
    refine ⟨j, hj1, hj2, i + 1 + k', by omega, by omega, ?_, ?_⟩
    · rw [importishAt]
      rw [getD_drop] at hk2
      rw [hk2]
      simp
    · intro m2 h1 h2
      rcases Nat.lt_or_ge m2 i with hc | hc
      · exact hj3 m2 h1 hc
      · rcases Nat.lt_or_ge m2 (i + 1) with hc2 | hc2
        · have he : m2 = i := by omega
          subst he
          rw [hblank]
          simp
        · have hrel := hk3 (m2 - (i + 1)) (by omega)
          rw [getD_drop] at hrel
          rw [show i + 1 + (m2 - (i + 1)) = m2 from by omega] at hrel
          exact hrel
  · rintro ⟨⟨j, hj1, hj2, k, hk1, hk2, hk3, hbet⟩, hms⟩
    refine ⟨hms, ?_, hblank, ?_⟩
    · refine blockAt_of_between ls j (by omega) hj2 i hj1 ?_
      intro m2 h1 h2
      exact hbet m2 h1 (by omega)
    · by_cases hop : ∀ m2, i < m2 → m2 < k → openerish (ls.getD m2 []) = false
      · have hmsk : mstateAt ls k = false := by
          apply mstate_stays_false ls i hms k (by omega)
          intro m2 ha hb2
          rcases Nat.lt_or_ge i m2 with hq | hq
          · exact hop m2 hq hb2
          · have he : m2 = i := by omega
            subst he
            exact blank_not_openerish _ hblank
        have hopk : openerish (ls.getD k []) = true := by
          rw [importishAt] at hk3
          rcases (Bool.or_eq_true _ _).mp hk3 with h1 | h1
          · exact h1
          · rw [hmsk] at h1
            cases h1
        apply clears_of_exists (ls.drop (i + 1)) (k - (i + 1))
        · rw [List.length_drop]
          omega
        · rw [getD_drop, show i + 1 + (k - (i + 1)) = k from by omega]
          exact hopk
        · intro m2 hm2
          rw [getD_drop]
          exact hbet (i + 1 + m2) (by omega) (by omega)
      · push_neg at hop
        obtain ⟨m0, hm01, hm02, hm03⟩ := hop
        have hm03t : openerish (ls.getD m0 []) = true := by
          cases hq : openerish (ls.getD m0 [])
          · exact absurd hq hm03
          · rfl
        apply clears_of_exists (ls.drop (i + 1)) (m0 - (i + 1))
        · rw [List.length_drop]
          omega
        · rw [getD_drop, show i + 1 + (m0 - (i + 1)) = m0 from by omega]
          exact hm03t
        · intro m2 hm2
          rw [getD_drop]
          exact hbet (i + 1 + m2) (by omega) (by omega)

/-- C1 counterexample: the claim as stated is false. In
"import {\n\n} from 'a'\n" the blank line 1 lies strictly between two import
lines (the opener at 0 and the continuation at 2), yet it is not dropped —
blank lines inside a multiline construct are emitted verbatim. -/
theorem claim_c1_counterexample :
    blankB ((rustLines (lit "import \x7b\n\n\x7d from 'a'\n")).getD 1 []) = true ∧
    betweenB (rustLines (lit "import \x7b\n\n\x7d from 'a'\n")) 1 = true ∧
    droppedAt (rustLines (lit "import \x7b\n\n\x7d from 'a'\n")) 1 = false := by
  refine ⟨by decide, by decide, by decide⟩

/-- C1 amended: a blank input line is dropped by `squeeze_imports` iff it lies
strictly between two import lines (import openers, import-meta openers, or
their multiline continuation lines), possibly with intervening blank and
comment lines, and is not itself inside an unterminated multiline construct;
every other blank line appears in the output. The second conjunct ties the
instrumented machine whose output defines `droppedAt` to `squeeze_imports`. -/
theorem claim_c1 (content : List Char) (i : Nat)
    (hi : i < (rustLines content).length)
    (hblank : blankB ((rustLines content).getD i []) = true) :
    (droppedAt (rustLines content) i =
      (betweenB (rustLines content) i && !mstateAt (rustLines content) i)) ∧
    squeeze_imports content =
      (if endsNlB content then
        joinWith [nl]
          ((runIdx (List.enumFrom 0 (rustLines content)) false false [] []).map
            Prod.snd) ++ [nl]
      else
        joinWith [nl]
          ((runIdx (List.enumFrom 0 (rustLines content)) false false [] []).map
            Prod.snd)) := by
  constructor
  · have hiff := dropped_iff_between (rustLines content) i hi hblank
    cases hd : droppedAt (rustLines content) i
    · cases hb2 : (betweenB (rustLines content) i && !mstateAt (rustLines content) i)
      · rfl
      · exfalso
        have hcon := hiff.mpr hb2
        rw [hd] at hcon
        cases hcon
    · exact (hiff.mp hd).symm
  · rw [runIdx_map_snd, List.enumFrom_map_snd]
    simp only [List.map_nil]
    exact squeeze_imports_eq_run content

/-- C1 witness: in "import a\n\nimport b\n" the blank line 1 lies between
two import openers outside any multiline construct, and is dropped. -/
theorem claim_c1_witness :
    1 < (rustLines (lit "import a\n\nimport b\n")).length ∧
    blankB ((rustLines (lit "import a\n\nimport b\n")).getD 1 []) = true ∧
    droppedAt (rustLines (lit "import a\n\nimport b\n")) 1 =
      (betweenB (rustLines (lit "import a\n\nimport b\n")) 1 &&
        !mstateAt (rustLines (lit "import a\n\nimport b\n")) 1) :=
  ⟨by decide, by decide,
    (claim_c1 (lit "import a\n\nimport b\n") 1 (by decide) (by decide)).1⟩
